import Mathlib

/-
Shallow embedding of the Skill Dock core (frontmatter codec, storage engine,
marketplace client, id validation) and proofs about the claims of its design
specification.

The codec definitions follow the repository's self-contained parser/serializer
(skillParser.ts, hand-rolled variant): parseFrontmatter, serializeSkill,
parseSimpleYaml, unquote, quoteYamlValue.  Strings are modelled as lists of
characters (String.data); JavaScript truthiness of strings and of optional
values is modelled explicitly.  The storage engine follows storageService.ts
(recordInstall, importFromPath, searchSkills) and the marketplace client
follows marketplaceService.ts (fetchSource with its five-minute TTL cache,
installSkill, the HTTP status dispatch with rate-limit translation).
Filesystem and network effects are passed explicitly as state or oracles.
-/

set_option maxHeartbeats 1000000
set_option maxRecDepth 100000

namespace SkillDock

/-- Whitespace test matching the JavaScript regex class on the ASCII range. -/
def isWsChar (c : Char) : Bool :=
  c = ' ' || c = '\t' || c = '\n' || c = '\r' || c = '\x0b' || c = '\x0c'

/-- Drop leading JavaScript whitespace (the trimStart half of trim). -/
def trimL (l : List Char) : List Char := l.dropWhile isWsChar

/-- Drop trailing JavaScript whitespace. -/
def trimR (l : List Char) : List Char := (l.reverse.dropWhile isWsChar).reverse

/-- JavaScript String.prototype.trim on a character list. -/
def jsTrim (l : List Char) : List Char := trimR (trimL l)

/-- Split a character list at newline characters, as String.prototype.split. -/
def splitNl : List Char → List (List Char)
  | [] => [[]]
  | c :: t =>
    match splitNl t with
    | [] => [[]]
    | h :: r => if c = '\n' then [] :: h :: r else (c :: h) :: r

/-- Boolean list-front test used to model String.prototype.startsWith. -/
def pfxOf : List Char → List Char → Bool
  | [], _ => true
  | _ :: _, [] => false
  | a :: as, b :: bs => if a = b then pfxOf as bs else false

/-- Boolean list-end test used to model String.prototype.endsWith. -/
def sfxOf (su l : List Char) : Bool := pfxOf su.reverse l.reverse

/-- Boolean substring test modelling String.prototype.includes. -/
def hasSub : List Char → List Char → Bool
  | [], nd => nd.isEmpty
  | l@(_ :: t), nd => pfxOf nd l || hasSub t nd

/-- ASCII lower-casing of a character list, as String.prototype.toLowerCase. -/
def jsLower (l : List Char) : List Char := l.map Char.toLower

/-- Split a line at its first colon, modelling indexOf with the two slices. -/
def breakColon : List Char → Option (List Char × List Char)
  | [] => none
  | c :: t =>
    if c = ':' then some ([], t)
    else
      match breakColon t with
      | none => none
      | some (k, v) => some (c :: k, v)

/-- Strip one layer of matching single or double quotes (the unquote helper);
slice one to minus-one is taken even for a single quote character alone. -/
def unquote (l : List Char) : List Char :=
  if (pfxOf ['\''] l && sfxOf ['\''] l) || (pfxOf ['"'] l && sfxOf ['"'] l) then
    (l.drop 1).dropLast
  else l

/-- Characters that force double quoting in the serializer's quoteYamlValue. -/
def isTriggerChar (c : Char) : Bool :=
  c = ':' || c = '#' || c = '\x7b' || c = '\x7d' || c = '[' || c = ']' ||
  c = ',' || c = '&' || c = '*' || c = '?' || c = '|' || c = '>' ||
  c = '\'' || c = '"' || c = '%' || c = '@' || c = '\x60'

/-- Escape embedded double quotes (the replace step of quoteYamlValue). -/
def escQ : List Char → List Char
  | [] => []
  | c :: t => if c = '"' then '\\' :: '"' :: escQ t else c :: escQ t

/-- Serializer quoting rule: double quote when a YAML-significant character
occurs, escaping any internal double quotes. -/
def quoteYamlValue (l : List Char) : List Char :=
  if l.any isTriggerChar then '"' :: (escQ l ++ ['"']) else l

/-- Index of the last newline inside the leading whitespace run: the greedy
backtracking choice of the whitespace-star-newline piece of the regex. -/
def lastNl : List Char → Option Nat
  | [] => none
  | c :: t =>
    if isWsChar c then
      match lastNl t with
      | some i => some (i + 1)
      | none => if c = '\n' then some 0 else none
    else none

/-- Match the closing whitespace-then-newline of the frontmatter regex and
return what follows it (capture group two). -/
def closeWs (l : List Char) : Option (List Char) :=
  match lastNl l with
  | some i => some (l.drop (i + 1))
  | none => none

/-- Lazy scan of the frontmatter regex for the newline-dash-dash-dash closing
delimiter; the accumulator is capture group one grown one character at a
time, exactly as the non-greedy group backtracks. -/
def bodyScan (acc : List Char) : List Char → Option (List Char × List Char)
  | [] => none
  | c :: u =>
    if c = '\n' && pfxOf ['-', '-', '-'] u then
      match closeWs (u.drop 3) with
      | some g2 => some (acc, g2)
      | none => bodyScan (acc ++ [c]) u
    else bodyScan (acc ++ [c]) u

/-- Newline positions inside the leading whitespace run, in ascending order:
the candidate split points of the opening whitespace-star-newline. -/
def nlCandsAsc : List Char → List Nat
  | [] => []
  | c :: t =>
    if isWsChar c then
      if c = '\n' then 0 :: (nlCandsAsc t).map (· + 1)
      else (nlCandsAsc t).map (· + 1)
    else []

/-- Try the opening split points greedily (largest first); for each, run the
lazy body scan, keeping the first success, as the regex engine backtracks. -/
def tryOpens (rest : List Char) : List Nat → Option (List Char × List Char)
  | [] => none
  | i :: more =>
    match bodyScan [] (rest.drop (i + 1)) with
    | some r => some r
    | none => tryOpens rest more

/-- Matcher for the frontmatter regex of parseFrontmatter: three dashes,
whitespace, newline, lazy header group, newline, three dashes, whitespace,
newline, greedy body group, anchored at both ends. -/
def matchFM (l : List Char) : Option (List Char × List Char) :=
  if pfxOf ['-', '-', '-'] l then
    tryOpens (l.drop 3) ((nlCandsAsc (l.drop 3)).reverse)
  else none

/-- Values produced by the hand-rolled YAML-subset parser: scalar strings,
flat string lists, and one level of nested objects. -/
inductive YVal where
  | str : List Char → YVal
  | arr : List (List Char) → YVal
  | obj : List (List Char × YVal) → YVal
deriving Repr

/-- Ordered association lookup, modelling property access on a plain object. -/
def lookupA : List (List Char × YVal) → List Char → Option YVal
  | [], _ => none
  | (k', v) :: t, k => if k' = k then some v else lookupA t k

/-- Ordered association update-or-append, modelling property assignment. -/
def setA : List (List Char × YVal) → List Char → YVal → List (List Char × YVal)
  | [], k, v => [(k, v)]
  | (k', v') :: t, k, v => if k' = k then (k', v) :: t else (k', v') :: setA t k v

/-- Fields of the object currently aliased by the parser's currentObject;
in every reachable state the entry under the current key is an object. -/
def objFieldsAt (r : List (List Char × YVal)) (k : List Char) : List (List Char × YVal) :=
  match lookupA r k with
  | some (.obj fs) => fs
  | _ => []

/-- Mutable state of parseSimpleYaml: the result object, the current nested
key (empty list for the falsy empty string), whether a nested object is
open, the pending list key, and the accumulated list items. -/
structure PState where
  result : List (List Char × YVal)
  currentKey : List Char
  hasObj : Bool
  listKey : List Char
  listItems : List (List Char)
deriving Repr

/-- The flushList closure of parseSimpleYaml. -/
def flushList (S : PState) : PState :=
  if S.listItems ≠ [] ∧ S.listKey ≠ [] then
    if S.hasObj ∧ S.listKey ≠ S.currentKey then
      { S with
        result := setA S.result S.currentKey
          (.obj (setA (objFieldsAt S.result S.currentKey) S.listKey (.arr S.listItems)))
        listKey := []
        listItems := [] }
    else
      let r' := setA S.result S.listKey (.arr S.listItems)
      if S.listKey = S.currentKey then
        { result := r', currentKey := [], hasObj := false, listKey := [], listItems := [] }
      else
        { S with result := r', listKey := [], listItems := [] }
  else S

/-- The pending-empty-key resolution of parseSimpleYaml: a previous key that
opened an object which stayed empty resolves to the empty string. -/
def resolvePending (S : PState) : PState :=
  if S.currentKey ≠ [] ∧ S.hasObj ∧ (objFieldsAt S.result S.currentKey).isEmpty then
    { S with result := setA S.result S.currentKey (.str []) }
  else S

/-- One loop iteration of parseSimpleYaml over a single line. -/
def procLine (S : PState) (line : List Char) : PState :=
  let t := jsTrim line
  if t = [] ∨ pfxOf ['#'] t then S
  else
    let ind := line.length - (trimL line).length
    if pfxOf ['-', ' '] t then
      { S with listItems := S.listItems ++ [jsTrim (t.drop 2)] }
    else
      let S1 := flushList S
      match breakColon t with
      | none => S1
      | some (kRaw, vRaw) =>
        let key := jsTrim kRaw
        let value := jsTrim vRaw
        if ind ≥ 2 ∧ S1.hasObj ∧ S1.currentKey ≠ [] then
          if value = [] ∨ value = ['|'] then
            { S1 with listKey := key }
          else
            { S1 with
              result := setA S1.result S1.currentKey
                (.obj (setA (objFieldsAt S1.result S1.currentKey) key (.str (unquote value)))) }
        else if value = [] ∨ value = ['|'] then
          if ind = 0 then
            let S2 := resolvePending S1
            { result := setA S2.result key (.obj []), currentKey := key, hasObj := true,
              listKey := key, listItems := S2.listItems }
          else S1
        else
          let S2 := resolvePending S1
          { result := setA S2.result key (.str (unquote value)), currentKey := [],
            hasObj := false, listKey := key, listItems := S2.listItems }

/-- The hand-rolled frontmatter header parser parseSimpleYaml. -/
def parseSimpleYaml (l : List Char) : List (List Char × YVal) :=
  (resolvePending (flushList ((splitNl l).foldl procLine
    { result := [], currentKey := [], hasObj := false, listKey := [], listItems := [] }))).result

def kName : List Char := ['n', 'a', 'm', 'e']

def kDescription : List Char := ['d', 'e', 's', 'c', 'r', 'i', 'p', 't', 'i', 'o', 'n']

def kLicense : List Char := ['l', 'i', 'c', 'e', 'n', 's', 'e']

def kCompatibility : List Char := ['c', 'o', 'm', 'p', 'a', 't', 'i', 'b', 'i', 'l', 'i', 't', 'y']

def kAuthor : List Char := ['a', 'u', 't', 'h', 'o', 'r']

def kVersion : List Char := ['v', 'e', 'r', 's', 'i', 'o', 'n']

def kTags : List Char := ['t', 'a', 'g', 's']

def kGeneratedBy : List Char := ['g', 'e', 'n', 'e', 'r', 'a', 't', 'e', 'd', 'B', 'y']

def kMetadata : List Char := ['m', 'e', 't', 'a', 'd', 'a', 't', 'a']

def untitledChars : List Char := ['u', 'n', 't', 'i', 't', 'l', 'e', 'd']

/-- JavaScript truthiness of a parsed value: empty strings are falsy, arrays
and objects (even empty ones) are truthy. -/
def jsTruthy : YVal → Bool
  | .str s => !s.isEmpty
  | .arr _ => true
  | .obj _ => true

/-- JavaScript value-or-default over a possibly absent property. -/
def jsOrDefault (o : Option YVal) (d : YVal) : YVal :=
  match o with
  | some v => if jsTruthy v then v else d
  | none => d

/-- JavaScript logical-or over two possibly absent properties. -/
def jsOrOpt (a b : Option YVal) : Option YVal :=
  match a with
  | some v => if jsTruthy v then some v else b
  | none => b

/-- Metadata record as returned by parseFrontmatter: the eight known fields
(holding whatever runtime values the parser produced) plus the open
string-keyed extension bag of the SkillMetadata interface. -/
structure RawMetadata where
  name : YVal
  description : YVal
  license : Option YVal
  compatibility : Option YVal
  author : Option YVal
  version : Option YVal
  tags : Option YVal
  generatedBy : Option YVal
  extra : List (List Char × YVal)
deriving Repr

/-- Optional-chained access into the legacy nested metadata block: property
access on a non-object yields undefined. -/
def nestedGet (r : List (List Char × YVal)) (k : List Char) : Option YVal :=
  match lookupA r kMetadata with
  | some (.obj fs) => lookupA fs k
  | _ => none

/-- The field-extraction object literal of parseFrontmatter (precedence of
nested versus top-level keys, defaulting of name and description).  The
literal carries only the eight known fields, so the extension bag is empty. -/
def extractMeta (r : List (List Char × YVal)) : RawMetadata :=
  { name := jsOrDefault (lookupA r kName) (.str untitledChars)
  , description := jsOrDefault (lookupA r kDescription) (.str [])
  , license := lookupA r kLicense
  , compatibility := lookupA r kCompatibility
  , author := jsOrOpt (nestedGet r kAuthor) (lookupA r kAuthor)
  , version := jsOrOpt (nestedGet r kVersion) (lookupA r kVersion)
  , tags := jsOrOpt (lookupA r kTags) (nestedGet r kTags)
  , generatedBy := nestedGet r kGeneratedBy
  , extra := [] }

/-- Fallback metadata when the document has no parsable frontmatter header. -/
def defaultMeta : RawMetadata :=
  { name := .str untitledChars, description := .str [], license := none,
    compatibility := none, author := none, version := none, tags := none,
    generatedBy := none, extra := [] }

/-- The parseFrontmatter entry point: match the delimiter regex, parse the
header, extract the metadata fields; on no match the whole input is body. -/
def parseFrontmatter (content : String) : RawMetadata × String :=
  match matchFM content.data with
  | none => (defaultMeta, content)
  | some (yamlChars, bodyChars) => (extractMeta (parseSimpleYaml yamlChars), ⟨bodyChars⟩)

/-- Typed metadata as fed to serializeSkill (the SkillMetadata interface with
its known fields; optional fields absent or present). -/
structure SkillMetadata where
  name : String
  description : String
  license : Option String := none
  compatibility : Option String := none
  author : Option String := none
  version : Option String := none
  tags : Option (List String) := none
  generatedBy : Option String := none
deriving Repr, DecidableEq

/-- JavaScript truthiness of an optional string field. -/
def optTruthy : Option String → Bool
  | some s => !s.isEmpty
  | none => false

/-- Emit one optional unquoted scalar line if the field is truthy. -/
def optLineRaw (k : List Char) (o : Option String) : List (List Char) :=
  match o with
  | some s => if s.isEmpty then [] else [k ++ ':' :: ' ' :: s.data]
  | none => []

/-- Emit one optional quoted scalar line if the field is truthy. -/
def optLineQuoted (k : List Char) (o : Option String) : List (List Char) :=
  match o with
  | some s => if s.isEmpty then [] else [k ++ ':' :: ' ' :: quoteYamlValue s.data]
  | none => []

/-- Emit one optional nested single-quoted scalar line if the field is truthy. -/
def optNestedQuoted (k : List Char) (o : Option String) : List (List Char) :=
  match o with
  | some s => if s.isEmpty then [] else [' ' :: ' ' :: (k ++ ':' :: ' ' :: '\'' :: (s.data ++ ['\'']))]
  | none => []

/-- Emit one optional nested unquoted scalar line if the field is truthy. -/
def optNestedRaw (k : List Char) (o : Option String) : List (List Char) :=
  match o with
  | some s => if s.isEmpty then [] else [' ' :: ' ' :: (k ++ ':' :: ' ' :: s.data)]
  | none => []

/-- The tags block: a key line followed by two-space-indented dash items,
emitted only when the list is non-empty. -/
def tagLines (o : Option (List String)) : List (List Char) :=
  match o with
  | some ts =>
    if ts.isEmpty then []
    else (kTags ++ [':']) :: ts.map (fun t => ' ' :: ' ' :: '-' :: ' ' :: t.data)
  | none => []

/-- The nested legacy metadata block of serializeSkill: present when author,
version or generatedBy is truthy; version and generatedBy single-quoted. -/
def metaLines (m : SkillMetadata) : List (List Char) :=
  if optTruthy m.author || optTruthy m.version || optTruthy m.generatedBy then
    (kMetadata ++ [':']) ::
      (optNestedRaw kAuthor m.author ++ optNestedQuoted kVersion m.version ++
        optNestedQuoted kGeneratedBy m.generatedBy)
  else []

/-- The header lines of the serialized document in emission order: name,
description, then the optional scalar, tags and nested metadata blocks. -/
def headerLines (m : SkillMetadata) : List (List Char) :=
  (kName ++ ':' :: ' ' :: m.name.data) ::
  (kDescription ++ ':' :: ' ' :: quoteYamlValue m.description.data) ::
  (optLineRaw kLicense m.license ++ optLineQuoted kCompatibility m.compatibility ++
    tagLines m.tags ++ metaLines m)

/-- All lines of the serialized document in order: the opening delimiter, the
header lines, the closing delimiter, a blank line, the trimmed body, and a
final blank line (the trailing newline of the join). -/
def serializeLines (m : SkillMetadata) (b : List Char) : List (List Char) :=
  ['-', '-', '-'] :: (headerLines m ++ [['-', '-', '-'], [], jsTrim b, []])

/-- Join lines with newline separators, as Array.prototype.join. -/
def joinNl : List (List Char) → List Char
  | [] => []
  | [l] => l
  | l :: t => l ++ '\n' :: joinNl t

/-- The serializeSkill entry point. -/
def serializeSkill (m : SkillMetadata) (b : String) : String :=
  ⟨joinNl (serializeLines m b.data)⟩

/-- Association lookup over string keys, modelling a plain JSON object or an
in-memory map keyed by skill or source id. -/
def alookup {α : Type} : List (String × α) → String → Option α
  | [], _ => none
  | (k, v) :: t, id => if k = id then some v else alookup t id

/-- Association update-or-append over string keys (property assignment). -/
def aset {α : Type} : List (String × α) → String → α → List (String × α)
  | [], k, v => [(k, v)]
  | (k', v') :: t, k, v => if k' = k then (k', v) :: t else (k', v') :: aset t k v

/-- One entry of the install-statistics ledger (the stats side-car record). -/
structure SkillStats where
  installCount : Nat
  lastInstalledAt : Int
  installedVersion : Option String
deriving Repr, DecidableEq

/-- The recordInstall upsert of storageService: increment the count (starting
from zero), stamp the time, and take the supplied version if it is present
(nullish coalescing), else keep the prior one. -/
def recordInstall (stats : List (String × SkillStats)) (id : String)
    (version : Option String) (now : Int) : List (String × SkillStats) :=
  let existing := alookup stats id
  aset stats id
    { installCount := (match existing with | some e => e.installCount | none => 0) + 1
    , lastInstalledAt := now
    , installedVersion :=
        match version with
        | some v => some v
        | none => match existing with | some e => e.installedVersion | none => none }

/-- Base name of a directory path (the last path segment, ignoring trailing
slashes), as the path-basename call of importFromPath. -/
def baseName (p : List Char) : List Char :=
  ((p.reverse.dropWhile (· = '/')).takeWhile (· ≠ '/')).reverse

/-- The candidate id tried at step k of the collision probe: the base name
itself first, then the base name with the dash-counter suffix. -/
def cand (base : List Char) : Nat → List Char
  | 0 => base
  | k + 1 => base ++ '-' :: (Nat.repr (k + 1)).data

/-- Fuel-bounded rendering of the while-loop of importFromPath that probes
candidate ids until a free one is found. -/
def probeId (taken : List (List Char)) (base : List Char) : Nat → Nat → List Char
  | 0, k => cand base k
  | fuel + 1, k => if cand base k ∈ taken then probeId taken base fuel (k + 1) else cand base k

/-- Target id chosen by importFromPath; one more probe than there are taken
ids always suffices because the candidates are pairwise distinct. -/
def importTargetId (taken : List (List Char)) (base : List Char) : List Char :=
  probeId taken base (taken.length + 1) 0

/-- The importFromPath operation on the abstract library state: the taken
directory names, the external directory path, and whether the primary
document exists there.  Returns the created id and the new taken set. -/
def importFromPath (taken : List (List Char)) (skillDir : List Char)
    (hasSkillMd : Bool) : Except Unit (List Char × List (List Char)) :=
  if hasSkillMd then
    let target := importTargetId taken (baseName skillDir)
    .ok (target, taken ++ [target])
  else .error ()

/-- A stored skill as consulted by searchSkills (path and timestamp fields of
the Skill interface are not consulted by the search and are omitted). -/
structure Skill where
  id : String
  metadata : SkillMetadata
  body : String
deriving Repr

/-- The per-skill predicate of searchSkills: case-insensitive substring match
on name, description, any tag, or the body. -/
def skillMatches (lq : List Char) (s : Skill) : Bool :=
  hasSub (jsLower s.metadata.name.data) lq ||
  hasSub (jsLower s.metadata.description.data) lq ||
  (match s.metadata.tags with
   | some ts => ts.any (fun t => hasSub (jsLower t.data) lq)
   | none => false) ||
  hasSub (jsLower s.body.data) lq

/-- The searchSkills filter over the listSkills result. -/
def searchSkills (skills : List Skill) (query : String) : List Skill :=
  skills.filter (skillMatches (jsLower query.data))

/-- A marketplace source descriptor. -/
structure MarketplaceSource where
  id : String
  owner : String
  repo : String
  branch : String
  path : String
  label : String
  isBuiltin : Bool
deriving Repr, DecidableEq

/-- A skill discovered in a remote source. -/
structure RemoteSkill where
  source : MarketplaceSource
  id : String
  metadata : SkillMetadata
  body : String
  repoPath : String
  downloadUrl : String
deriving Repr, DecidableEq

/-- A cache entry of the marketplace client, keyed by source id. -/
structure CacheEntry where
  data : List RemoteSkill
  timestamp : Int
deriving Repr, DecidableEq

/-- One item of the Git tree listing. -/
structure GitTreeItem where
  path : String
  type : String
deriving Repr, DecidableEq

/-- Network oracle: the repository tree returned by the tree-listing request,
and the per-document outcome of fetching and parsing one skill file
(absence models an isolated per-document failure). -/
structure Network where
  tree : List GitTreeItem
  fetchDoc : String → Option RemoteSkill

/-- The five-minute cache time-to-live. -/
def CACHE_TTL_MS : Int := 5 * 60 * 1000

/-- Filter tree paths whose last segment is the primary document filename,
case-insensitively. -/
def skillMdFilter (paths : List String) : List String :=
  paths.filter (fun p =>
    sfxOf "/skill.md".data (jsLower p.data) || jsLower p.data = "skill.md".data)

/-- The configured subdirectory filter: the path with trailing slashes
stripped plus one slash, or nothing when the path is empty (falsy). -/
def sourcePre (src : MarketplaceSource) : List Char :=
  if src.path.isEmpty then []
  else (src.path.data.reverse.dropWhile (· = '/')).reverse ++ ['/']

/-- Steps two and three of the fetchSource walk: blob paths from the tree,
primary-document filter, then subdirectory-prefix filter. -/
def filteredPaths (src : MarketplaceSource) (net : Network) : List String :=
  let treePaths := (net.tree.filter (fun it => it.type = "blob")).map (·.path)
  let mdPaths := skillMdFilter treePaths
  let pre := sourcePre src
  if pre = [] then mdPaths else mdPaths.filter (fun p => pfxOf pre p.data)

/-- The outcome of one fetchSource call: the returned list, the cache after
the call, and how many network requests were issued. -/
structure FetchResult where
  skills : List RemoteSkill
  cache : List (String × CacheEntry)
  netCalls : Nat

/-- The network walk of fetchSource: one tree request, one request per
filtered document path (failures isolated), and a cache store under the
source id with the current timestamp. -/
def fetchWalk (cache : List (String × CacheEntry)) (src : MarketplaceSource)
    (now : Int) (net : Network) : FetchResult :=
  let filtered := filteredPaths src net
  let skills := filtered.filterMap net.fetchDoc
  ⟨skills, aset cache src.id ⟨skills, now⟩, 1 + filtered.length⟩

/-- The fetchSource entry point: a cache entry younger than the TTL is
returned as-is with no network activity unless the caller forces a walk. -/
def fetchSource (cache : List (String × CacheEntry)) (src : MarketplaceSource)
    (force : Bool) (now : Int) (net : Network) : FetchResult :=
  if force = false then
    match alookup cache src.id with
    | some c =>
      if now - c.timestamp < CACHE_TTL_MS then ⟨c.data, cache, 0⟩
      else fetchWalk cache src now net
    | none => fetchWalk cache src now net
  else fetchWalk cache src now net

/-- The user's answer to the overwrite dialog of installSkill; any answer
other than the overwrite button (including dismissal) cancels. -/
inductive InstallAnswer where
  | overwrite
  | cancel
deriving Repr, DecidableEq

/-- A library entry as written by createSkill or updateSkill. -/
structure LibEntry where
  metadata : SkillMetadata
  body : String
deriving Repr, DecidableEq

/-- The installSkill operation: with an existing skill of the same id the
dialog answer decides between a no-op and an in-place update; otherwise the
skill is created fresh; every proceeding path records the install with the
remote metadata's version. -/
def installSkill (lib : List (String × LibEntry)) (stats : List (String × SkillStats))
    (remote : RemoteSkill) (ans : InstallAnswer) (now : Int) :
    List (String × LibEntry) × List (String × SkillStats) :=
  match alookup lib remote.id with
  | some _ =>
    match ans with
    | .cancel => (lib, stats)
    | .overwrite =>
      (aset lib remote.id ⟨remote.metadata, remote.body⟩,
        recordInstall stats remote.id remote.metadata.version now)
  | none =>
    (aset lib remote.id ⟨remote.metadata, remote.body⟩,
      recordInstall stats remote.id remote.metadata.version now)

/-- The message of the rate-limit error created by the marketplace client. -/
def rateLimitMessage : String :=
  "GitHub API rate limit exceeded. Run \"Set GitHub Token\" command to set a personal access token and increase the limit."

/-- The error factory of the marketplace client: a 403 status whose
rate-limit-remaining header reads zero becomes the rate-limit error with
remediation guidance, anything else the generic HTTP-status error. -/
def httpError (statusCode : Nat) (url : String) (rateLimitRemaining : Option String) : String :=
  if statusCode = 403 ∧ rateLimitRemaining = some "0" then rateLimitMessage
  else "HTTP " ++ toString statusCode ++ " for " ++ url

/-- What the HTTP GET helpers do with a response status. -/
inductive RespAction where
  | followRedirect : String → RespAction
  | rejectWith : String → RespAction
  | readBody : RespAction
deriving Repr, DecidableEq

/-- The status dispatch shared by the two HTTP GET helpers: redirects with a
location header are followed, statuses of four hundred and above reject
with the error factory's message, anything else reads the body. -/
def respond (status : Nat) (location : Option String) (rateRemaining : Option String)
    (url : String) : RespAction :=
  if 300 ≤ status ∧ status < 400 ∧ location.isSome then
    .followRedirect (location.getD "")
  else if 400 ≤ status then .rejectWith (httpError status url rateRemaining)
  else .readBody

/-- Character class of the id validation regexes: lowercase letter or digit. -/
def lowerDigit (c : Char) : Bool := c.isLower || c.isDigit

/-- Tail of the two-or-more-character id regexes: hyphens allowed inside,
the final character a lowercase letter or digit. -/
def idTail : List Char → Bool
  | [] => false
  | [c] => lowerDigit c
  | c :: t => (lowerDigit c || c = '-') && idTail t

/-- The editor panel's original id regex (requires at least two characters). -/
def matchOldId : List Char → Bool
  | [] => false
  | [_] => false
  | c :: t => lowerDigit c && idTail t

/-- The specified id regex: one character, or first and last both lowercase
alphanumeric with hyphens allowed strictly inside. -/
def matchSpecId : List Char → Bool
  | [] => false
  | [c] => lowerDigit c
  | c :: t => lowerDigit c && idTail t

/-- The looser regex of the input-box validators in extension.ts: a trailing
hyphen is accepted. -/
def matchLoose : List Char → Bool
  | [] => false
  | c :: t => lowerDigit c && t.all (fun d => lowerDigit d || d = '-')

/-- The validate function of the skill editor webview: empty id rejected, the
regex consulted only for ids longer than one character, empty name
rejected, everything else accepted. -/
def validateEditorId (idRaw nameRaw : String) : Bool :=
  let id := jsTrim idRaw.data
  let nm := jsTrim nameRaw.data
  if id = [] then false
  else if !matchOldId id && id.length > 1 then false
  else if nm = [] then false
  else true

/-- The validateInput callback of the duplicate-skill input box. -/
def validateDuplicateId (value : String) : Bool :=
  if jsTrim value.data = [] then false
  else matchLoose value.data

/-- Decimal digit characters of a natural number: the semantic view of the
fuel-based toDigitsCore used by Nat.repr. -/
def decDigits (n : Nat) : List Char :=
  if _h : n < 10 then [Nat.digitChar n]
  else decDigits (n / 10) ++ [Nat.digitChar (n % 10)]
decreasing_by
  exact Nat.div_lt_self (by omega) (by omega)

/-- Characters allowed inside a representable scalar value: no whitespace
other than the space, and no quote characters (the parser strips quotes
without unescaping, so embedded quotes cannot round-trip). -/
def okChar (c : Char) : Bool :=
  (!isWsChar c || c == ' ') && c != '\'' && c != '"'

/-- A representable scalar value: non-empty, trimmed (no leading or trailing
whitespace), only allowed characters, and not the lone block-scalar pipe. -/
def isPlainL (l : List Char) : Bool :=
  match l with
  | [] => false
  | _ :: _ =>
    !isWsChar (l.headD 'x') && !isWsChar (l.getLastD 'x') && l.all okChar &&
      decide (l ≠ ['|'])

/-- A value as the parser sees it after the colon split: non-empty, trimmed,
and not the block-scalar pipe (quoted values also satisfy this). -/
def valOkB (v : List Char) : Bool :=
  !v.isEmpty && !isWsChar (v.headD 'x') && !isWsChar (v.getLastD 'x') && decide (v ≠ ['|'])

/-- Side conditions on a header key (all the serializer's keys satisfy them):
non-empty, colon-free, trimmed, and not starting a comment or a list item. -/
def goodKeyB (k : List Char) : Bool :=
  !k.isEmpty && k.all (fun c => c != ':') && !isWsChar (k.headD 'x') &&
  !isWsChar (k.getLastD 'x') && decide (k.headD 'x' ≠ '#') && decide (k.headD 'x' ≠ '-')

/-- Representability of one optional scalar field: absent, or a plain value
(the empty string is excluded: the serializer would drop the field). -/
def optPlainB : Option String → Bool
  | some s => isPlainL s.data
  | none => true

/-- Representability of the tags field: absent, or a non-empty list of plain
values (an empty list is dropped by the serializer). -/
def tagsPlainB : Option (List String) → Bool
  | none => true
  | some ts => !ts.isEmpty && ts.all (fun t => isPlainL t.data)

/-- A metadata record with only representable fields: plain name, empty or
plain description, optional fields absent or plain, tags absent or a
non-empty list of plain values. -/
def Representable (m : SkillMetadata) : Bool :=
  isPlainL m.name.data && (m.description.isEmpty || isPlainL m.description.data) &&
  optPlainB m.license && optPlainB m.compatibility && optPlainB m.author &&
  optPlainB m.version && optPlainB m.generatedBy && tagsPlainB m.tags

/-- Parser state after a top-level scalar assignment: no open object, no
pending list items, the last key remembered as the list key. -/
def stA (r : List (List Char × YVal)) (lk : List Char) : PState :=
  ⟨r, [], false, lk, []⟩

/-- Parser state after a top-level key with empty value: an open (so far
empty) object placeholder under that key. -/
def stB (r : List (List Char × YVal)) (k : List Char) : PState :=
  ⟨r, k, true, k, []⟩

/-- Parser state inside the top-level tags block: the placeholder object
under tags, with the items collected so far. -/
def stT (r : List (List Char × YVal)) (items : List (List Char)) : PState :=
  ⟨r, kTags, true, kTags, items⟩

/-- Parser state inside the nested metadata block. -/
def stM (r : List (List Char × YVal)) : PState :=
  ⟨r, kMetadata, true, kMetadata, []⟩

/-- Fold of the remaining lines from a given state. -/
def runLines (S : PState) (lines : List (List Char)) : PState :=
  lines.foldl procLine S

/-- A state settles to a result record: flushing the pending list and
resolving a pending empty key yields that record. -/
inductive Settles : PState → List (List Char × YVal) → Prop
  | a (r : List (List Char × YVal)) (lk : List Char) : Settles (stA r lk) r
  | b (r : List (List Char × YVal)) (k : List Char)
      (h : lookupA r k = some (.obj [])) (hk : k ≠ []) :
      Settles (stB r k) (setA r k (.str []))
  | t (r : List (List Char × YVal)) (items : List (List Char))
      (h : lookupA r kTags = some (.obj [])) (hne : items ≠ []) :
      Settles (stT r items) (setA r kTags (.arr items))
  | m (r : List (List Char × YVal))
      (h : (objFieldsAt r kMetadata).isEmpty = false) : Settles (stM r) r

/-- Key-value pairs of the nested metadata block with their raw emitted
value text (version and generatedBy single-quoted). -/
def nestedPairs (m : SkillMetadata) : List (List Char × List Char) :=
  (match m.author with
   | some s => if s.isEmpty then [] else [(kAuthor, s.data)]
   | none => []) ++
  (match m.version with
   | some s => if s.isEmpty then [] else [(kVersion, '\'' :: (s.data ++ ['\'']))]
   | none => []) ++
  (match m.generatedBy with
   | some s => if s.isEmpty then [] else [(kGeneratedBy, '\'' :: (s.data ++ ['\'']))]
   | none => [])

/-- Render one nested pair as its emitted two-space-indented line. -/
def nestedLine (p : List Char × List Char) : List Char :=
  ' ' :: ' ' :: (p.1 ++ ':' :: ' ' :: p.2)

/-- Fold nested assignments into the open object's field list. -/
def fieldFold (fs : List (List Char × YVal)) (ps : List (List Char × List Char)) :
    List (List Char × YVal) :=
  ps.foldl (fun fs' p => setA fs' p.1 (.str (unquote p.2))) fs

/-- Result-record effect of one optional scalar header line. -/
def optSetStr (r : List (List Char × YVal)) (k : List Char) (o : Option String) :
    List (List Char × YVal) :=
  match o with
  | some s => if s.isEmpty then r else setA r k (.str s.data)
  | none => r

/-- Result-record effect of the tags block. -/
def tagsSet (r : List (List Char × YVal)) (o : Option (List String)) :
    List (List Char × YVal) :=
  match o with
  | some ts => if ts.isEmpty then r else setA r kTags (.arr (ts.map (fun t => t.data)))
  | none => r

/-- Result-record effect of the nested metadata block. -/
def metaSet (r : List (List Char × YVal)) (m : SkillMetadata) : List (List Char × YVal) :=
  if optTruthy m.author || optTruthy m.version || optTruthy m.generatedBy then
    setA r kMetadata (.obj (fieldFold [] (nestedPairs m)))
  else r

/-- The parsed header record of a serialized representable metadata record. -/
def headerResult (m : SkillMetadata) : List (List Char × YVal) :=
  metaSet
    (tagsSet
      (optSetStr
        (optSetStr
          (setA (setA [] kName (.str m.name.data)) kDescription (.str m.description.data))
          kLicense m.license)
        kCompatibility m.compatibility)
      m.tags)
    m

/-- The body returned by parsing a serialized document: the trimmed body plus
the trailing newline of the join, or empty when the trimmed body is empty. -/
def bodyRT (b : List Char) : List Char :=
  if (jsTrim b).isEmpty then [] else jsTrim b ++ ['\n']

/-- Safety of a character list for the lazy body scan: after every newline
comes a character other than a dash, and no trailing newline. -/
def scanSafe : List Char → Bool
  | [] => true
  | c :: t =>
    (if c = '\n' then (match t with | [] => false | d :: _ => decide (d ≠ '-')) else true) &&
      scanSafe t

/-- Runtime value of an optional scalar field after the round trip: the
field's string value, or absent. -/
def optStrVal : Option String → Option YVal
  | some s => some (.str s.data)
  | none => none

/-- Runtime value of the optional tags field after the round trip. -/
def tagsVal : Option (List String) → Option YVal
  | some ts => some (.arr (ts.map (fun t => t.data)))
  | none => none

/-- The emitted pair list of one unquoted nested field. -/
def partRaw (k : List Char) (o : Option String) : List (List Char × List Char) :=
  match o with
  | some s => if s.isEmpty then [] else [(k, s.data)]
  | none => []

/-- The emitted pair list of one single-quoted nested field. -/
def partQuoted (k : List Char) (o : Option String) : List (List Char × List Char) :=
  match o with
  | some s => if s.isEmpty then [] else [(k, '\'' :: (s.data ++ ['\'']))]
  | none => []

/-- Effect of folding one nested part into a field record. -/
def partSet (fs : List (List Char × YVal)) (k : List Char) (o : Option String) :
    List (List Char × YVal) :=
  match o with
  | some s => setA fs k (.str s.data)
  | none => fs

/-- Field-for-field image of a representable metadata record under the round
trip: every field comes back as its runtime value, the extension bag empty. -/
def expectedRaw (m : SkillMetadata) : RawMetadata :=
  { name := .str m.name.data
  , description := .str m.description.data
  , license := optStrVal m.license
  , compatibility := optStrVal m.compatibility
  , author := optStrVal m.author
  , version := optStrVal m.version
  , tags := tagsVal m.tags
  , generatedBy := optStrVal m.generatedBy
  , extra := [] }

/- End of the definitions needed for the storage, marketplace and validation
claims; the codec round-trip development adds its own definitions below. -/

/-- Updating a string-keyed association and reading the same key back. -/
theorem alookup_aset_same {α : Type} (l : List (String × α)) (k : String) (v : α) :
    alookup (aset l k v) k = some v := by
  induction l with
  | nil => simp [aset, alookup]
  | cons h t ih =>
    obtain ⟨k', v'⟩ := h
    by_cases hk : k' = k
    · simp [aset, alookup, hk]
    · simp [aset, alookup, hk, ih]

/-- Updating a string-keyed association leaves other keys unchanged. -/
theorem alookup_aset_other {α : Type} (l : List (String × α)) (k other : String) (v : α)
    (h : other ≠ k) : alookup (aset l k v) other = alookup l other := by
  have hne : ¬(k = other) := fun hh => h hh.symm
  induction l with
  | nil => simp [aset, alookup, hne]
  | cons hd t ih =>
    obtain ⟨k', v'⟩ := hd
    by_cases hk : k' = k
    · subst hk
      simp [aset, alookup, hne]
    · simp [aset, alookup, hk, ih]

/-- Emptiness of the substring needle always matches, as with includes. -/
theorem hasSub_nil (hay : List Char) : hasSub hay [] = true := by
  cases hay <;> simp [hasSub, pfxOf, List.isEmpty]

/-- Every skill matches the empty query: the very first disjunct (substring
test of the empty string against the name) already succeeds. -/
theorem skillMatches_nil (s : Skill) : skillMatches [] s = true := by
  simp [skillMatches, hasSub_nil]

/-- C10: the empty query is the identity filter; searchSkills with the empty
string returns exactly the listSkills result, in the same order, because
the case-insensitive substring test of the empty string always succeeds. -/
theorem searchSkills_empty_query_identity (skills : List Skill) :
    searchSkills skills "" = skills := by
  have h : jsLower "".data = [] := rfl
  unfold searchSkills
  rw [h]
  exact List.filter_eq_self.mpr fun a _ => skillMatches_nil a

/-- C3 counterexample: after recording version "2.0", a recordInstall whose
supplied version is the empty string overwrites the stored version with the
empty string instead of retaining "2.0" (nullish coalescing keeps every
supplied value, empty or not), contradicting the claim that the version is
updated only when the supplied version is non-empty. -/
theorem recordInstall_empty_version_overwrites :
    alookup (recordInstall (recordInstall [] "x" (some "2.0") 1) "x" (some "") 2) "x" =
      some { installCount := 2, lastInstalledAt := 2, installedVersion := some "" } ∧
    (some "" : Option String) ≠ some "2.0" := by
  constructor
  · rfl
  · decide

/-- C3 (amended): recordInstall upserts the ledger entry for the id, with the
count incremented from zero, the timestamp set to now, and the stored
version replaced by the supplied version whenever one is supplied (even the
empty string) and retained only when the version argument is absent; other
ids are untouched; the three-install scenario of the claim holds, and a
versionless fourth install retains "2.0". -/
theorem recordInstall_upsert (stats : List (String × SkillStats)) (id other : String)
    (version : Option String) (now t1 t2 t3 t4 : Int) (hother : other ≠ id) :
    alookup (recordInstall stats id version now) id =
      some { installCount := (match alookup stats id with | some e => e.installCount | none => 0) + 1
           , lastInstalledAt := now
           , installedVersion :=
               match version with
               | some v => some v
               | none => match alookup stats id with | some e => e.installedVersion | none => none } ∧
    alookup (recordInstall stats id version now) other = alookup stats other ∧
    alookup (recordInstall (recordInstall (recordInstall [] "x" (some "1.0") t1)
        "x" (some "1.0") t2) "x" (some "2.0") t3) "x" =
      some { installCount := 3, lastInstalledAt := t3, installedVersion := some "2.0" } ∧
    alookup (recordInstall (recordInstall (recordInstall (recordInstall [] "x" (some "1.0") t1)
        "x" (some "1.0") t2) "x" (some "2.0") t3) "x" none t4) "x" =
      some { installCount := 4, lastInstalledAt := t4, installedVersion := some "2.0" } := by
  refine ⟨?_, ?_, by simp [recordInstall, alookup, aset], by simp [recordInstall, alookup, aset]⟩
  · unfold recordInstall
    exact alookup_aset_same stats id _
  · unfold recordInstall
    exact alookup_aset_other stats id other _ hother

/-- Witness for the amended C3 theorem at concrete inputs. -/
theorem recordInstall_upsert_witness :
    alookup (recordInstall [("x", ⟨1, 0, some "0.9"⟩)] "x" (some "1.5") 7) "x" =
      some { installCount := 2, lastInstalledAt := 7, installedVersion := some "1.5" } ∧
    alookup (recordInstall [("x", ⟨1, 0, some "0.9"⟩)] "x" (some "1.5") 7) "y" =
      alookup [("x", ⟨1, 0, some "0.9"⟩)] "y" ∧
    alookup (recordInstall (recordInstall (recordInstall [] "x" (some "1.0") 1)
        "x" (some "1.0") 2) "x" (some "2.0") 3) "x" =
      some { installCount := 3, lastInstalledAt := 3, installedVersion := some "2.0" } ∧
    alookup (recordInstall (recordInstall (recordInstall (recordInstall [] "x" (some "1.0") 1)
        "x" (some "1.0") 2) "x" (some "2.0") 3) "x" none 4) "x" =
      some { installCount := 4, lastInstalledAt := 4, installedVersion := some "2.0" } := by
  simpa using recordInstall_upsert [("x", ⟨1, 0, some "0.9"⟩)] "x" "y" (some "1.5") 7 1 2 3 4 (by decide)

/-- Two strings whose first characters differ are different strings. -/
theorem string_head_ne (s t : String) (a b : Char) (ha : s.data.head? = some a)
    (hb : t.data.head? = some b) (hab : a ≠ b) : s ≠ t := by
  intro h
  rw [h, hb] at ha
  exact hab (Option.some.inj ha).symm

/-- C7: a 403 response whose rate-limit-remaining header reads "0" is rejected
with the rate-limit error, whose message carries the token remediation
guidance; every other status of four hundred or above is rejected with the
generic HTTP-status message, and the two messages are never equal. -/
theorem rate_limit_translated (url : String) (location : Option String) (status : Nat)
    (rr : Option String) (hge : 400 ≤ status) (hother : ¬(status = 403 ∧ rr = some "0")) :
    respond 403 location (some "0") url = .rejectWith rateLimitMessage ∧
    respond status location rr url =
      .rejectWith ("HTTP " ++ toString status ++ " for " ++ url) ∧
    hasSub rateLimitMessage.data ['t', 'o', 'k', 'e', 'n'] = true ∧
    rateLimitMessage ≠ "HTTP " ++ toString status ++ " for " ++ url := by
  refine ⟨?_, ?_, by decide, ?_⟩
  · simp [respond, httpError]
  · have h1 : ¬(300 ≤ status ∧ status < 400 ∧ (location : Option String).isSome = true) := by
      rintro ⟨_, hlt, _⟩
      omega
    simp [respond, h1, hge, httpError, hother]
  · exact string_head_ne _ _ 'G' 'H' rfl rfl (by decide)

/-- Witness for the rate-limit translation theorem at a concrete request. -/
theorem rate_limit_translated_witness :
    respond 403 none (some "0") "u" = .rejectWith rateLimitMessage ∧
    respond 404 none none "u" = .rejectWith ("HTTP " ++ toString 404 ++ " for " ++ "u") ∧
    hasSub rateLimitMessage.data ['t', 'o', 'k', 'e', 'n'] = true ∧
    rateLimitMessage ≠ "HTTP " ++ toString 404 ++ " for " ++ "u" :=
  rate_limit_translated "u" none 404 none (by decide) (by decide)

/-- C9: the changelog and the extracted validation tests fix the id rule to
the regex accepting exactly one-or-more lowercase alphanumerics with
hyphens strictly inside, and the ten listed examples behave accordingly;
but the shipped editor panel still short-circuits the regex for
one-character inputs, accepting the lone hyphen, and the duplicate-skill
input box still accepts a trailing hyphen. -/
theorem id_validation_verdicts :
    (matchSpecId "a".data = true ∧ matchSpecId "ab".data = true ∧
     matchSpecId "skill-123".data = true ∧ matchSpecId "1-2-3".data = true ∧
     matchSpecId "".data = false ∧ matchSpecId "-test".data = false ∧
     matchSpecId "test-".data = false ∧ matchSpecId "MySkill".data = false ∧
     matchSpecId "my_skill".data = false ∧ matchSpecId "my skill".data = false) ∧
    validateEditorId "-" "x" = true ∧ matchSpecId "-".data = false ∧
    validateDuplicateId "test-" = true ∧ matchSpecId "test-".data = false := by
  decide

/-- The fuel-based digit printer agrees with the semantic digit list whenever
it is given enough fuel. -/
theorem toDigitsCore_eq_decDigits (f : Nat) : ∀ (n : Nat) (acc : List Char), n < f →
    Nat.toDigitsCore 10 f n acc = decDigits n ++ acc := by
  induction f with
  | zero => intro n acc h; omega
  | succ f ih =>
    intro n acc h
    by_cases h10 : n < 10
    · have hdiv : n / 10 = 0 := Nat.div_eq_of_lt h10
      have hmod : n % 10 = n := Nat.mod_eq_of_lt h10
      simp [Nat.toDigitsCore, hdiv, decDigits, h10, hmod]
    · have hdiv : ¬(n / 10 = 0) := by omega
      simp [Nat.toDigitsCore, hdiv]
      rw [ih (n / 10) _ (by omega)]
      conv_rhs => rw [decDigits]
      simp [h10]

/-- The decimal representation used by the candidate suffixes is the semantic
digit list. -/
theorem repr_data_eq_decDigits (n : Nat) : (Nat.repr n).data = decDigits n := by
  show (Nat.toDigits 10 n).asString.data = decDigits n
  unfold Nat.toDigits
  rw [toDigitsCore_eq_decDigits (n + 1) n [] (by omega)]
  simp [List.asString]

/-- Digit lists are never empty. -/
theorem decDigits_ne_nil (n : Nat) : decDigits n ≠ [] := by
  rw [decDigits]
  split
  · simp
  · simp

/-- The digit character map is injective on single digits. -/
theorem digitChar_inj (a b : Nat) (ha : a < 10) (hb : b < 10)
    (h : Nat.digitChar a = Nat.digitChar b) : a = b := by
  interval_cases a <;> interval_cases b <;> revert h <;> decide

/-- Unfolding of the digit list below ten. -/
theorem decDigits_lt {n : Nat} (h : n < 10) : decDigits n = [Nat.digitChar n] := by
  rw [decDigits]
  simp [h]

/-- Unfolding of the digit list at ten and above. -/
theorem decDigits_ge {n : Nat} (h : ¬n < 10) :
    decDigits n = decDigits (n / 10) ++ [Nat.digitChar (n % 10)] := by
  rw [decDigits]
  simp [h]

/-- Semantic digit lists identify their numbers. -/
theorem decDigits_inj : ∀ n m, decDigits n = decDigits m → n = m := by
  intro n
  induction n using Nat.strong_induction_on with
  | _ n ih =>
    intro m h
    by_cases hn : n < 10 <;> by_cases hm : m < 10
    · rw [decDigits_lt hn, decDigits_lt hm] at h
      exact digitChar_inj n m hn hm (by simpa using h)
    · rw [decDigits_lt hn, decDigits_ge hm] at h
      have hlen := congrArg List.length h
      simp at hlen
      exact absurd hlen (decDigits_ne_nil _)
    · rw [decDigits_ge hn, decDigits_lt hm] at h
      have hlen := congrArg List.length h
      simp at hlen
      exact absurd hlen (decDigits_ne_nil _)
    · rw [decDigits_ge hn, decDigits_ge hm] at h
      obtain ⟨h1, h2⟩ := List.append_inj' h (by simp)
      have hd : n / 10 = m / 10 := ih (n / 10) (by omega) (m / 10) h1
      have hmod : n % 10 = m % 10 :=
        digitChar_inj _ _ (by omega) (by omega) (by simpa using h2)
      omega

/-- The decimal printer of natural numbers is injective. -/
theorem nat_repr_inj (n m : Nat) (h : Nat.repr n = Nat.repr m) : n = m :=
  decDigits_inj n m (by
    rw [← repr_data_eq_decDigits, ← repr_data_eq_decDigits, h])

/-- Probe candidates for a fixed base name are pairwise distinct. -/
theorem cand_inj (base : List Char) : Function.Injective (cand base) := by
  intro i j h
  match i, j with
  | 0, 0 => rfl
  | 0, j + 1 =>
    exact absurd (congrArg List.length h)
      (by simp [cand, decDigits_ne_nil, repr_data_eq_decDigits,
        List.length_pos.mpr (decDigits_ne_nil (j + 1))])
  | i + 1, 0 =>
    exact absurd (congrArg List.length h)
      (by simp [cand, decDigits_ne_nil, repr_data_eq_decDigits,
        List.length_pos.mpr (decDigits_ne_nil (i + 1))])
  | i + 1, j + 1 =>
    simp only [cand, List.append_cancel_left_eq, List.cons.injEq, true_and] at h
    have : Nat.repr (i + 1) = Nat.repr (j + 1) := by
      apply String.ext
      exact h
    simpa using nat_repr_inj _ _ this

/-- Among one more candidate than there are taken ids, some candidate is
free: the candidates are pairwise distinct (pigeonhole). -/
theorem exists_free_cand (taken : List (List Char)) (base : List Char) :
    ∃ m, m ≤ taken.length ∧ cand base m ∉ taken := by
  by_contra hcon
  push_neg at hcon
  have hsub : ∀ x ∈ (List.range (taken.length + 1)).map (cand base), x ∈ taken := by
    intro x hx
    obtain ⟨m, hm, rfl⟩ := List.mem_map.mp hx
    exact hcon m (by simpa using Nat.lt_succ_iff.mp (List.mem_range.mp hm))
  have hnd : ((List.range (taken.length + 1)).map (cand base)).Nodup :=
    (List.nodup_range _).map (cand_inj base)
  have hcard : ((List.range (taken.length + 1)).map (cand base)).toFinset.card =
      taken.length + 1 := by
    rw [List.toFinset_card_of_nodup hnd]
    simp
  have hle : ((List.range (taken.length + 1)).map (cand base)).toFinset.card ≤
      taken.toFinset.card := by
    apply Finset.card_le_card
    intro x hx
    exact List.mem_toFinset.mpr (hsub x (List.mem_toFinset.mp hx))
  have := List.toFinset_card_le taken
  omega

/-- The fuel-bounded probe returns the first free candidate whenever a free
candidate lies within the fuel bound. -/
theorem probeId_first_free (taken : List (List Char)) (base : List Char) :
    ∀ (fuel k : Nat), (∃ m, m < fuel ∧ cand base (k + m) ∉ taken) →
      ∃ m, m < fuel ∧ probeId taken base fuel k = cand base (k + m) ∧
        cand base (k + m) ∉ taken ∧ ∀ j, j < m → cand base (k + j) ∈ taken := by
  intro fuel
  induction fuel with
  | zero => rintro k ⟨m, hm, _⟩; omega
  | succ fuel ih =>
    rintro k ⟨m, hm, hfree⟩
    by_cases hk : cand base k ∈ taken
    · have hm0 : m ≠ 0 := by
        rintro rfl
        simp at hfree
        exact hfree hk
      obtain ⟨m', hm', heq, hfree', hleast'⟩ := ih (k + 1)
        ⟨m - 1, by omega, by
          have : k + 1 + (m - 1) = k + m := by omega
          rw [this]; exact hfree⟩
      refine ⟨m' + 1, by omega, ?_, ?_, ?_⟩
      · simp only [probeId, if_pos hk]
        rw [heq]
        congr 1
        omega
      · have harith : k + (m' + 1) = k + 1 + m' := by omega
        rw [harith]; exact hfree'
      · intro j hj
        match j with
        | 0 => simpa using hk
        | j + 1 =>
          have harith : k + (j + 1) = k + 1 + j := by omega
          rw [harith]
          exact hleast' j (by omega)
    · refine ⟨0, by omega, ?_, by simpa using hk, ?_⟩
      · simp only [probeId, if_neg hk]
        simp
      · intro j hj
        exact absurd hj (by omega)

/-- C5 (collision-safe import): importing a directory with no primary
document fails; otherwise the target id is derived from the directory base
name and is the first free candidate in the deterministic dash-counter
probe; importing two directories both base-named widget yields the ids
widget then widget-1. -/
theorem importFromPath_collision_safe (taken : List (List Char)) (skillDir : List Char) :
    importFromPath taken skillDir false = .error () ∧
    (∃ k, importFromPath taken skillDir true =
        .ok (cand (baseName skillDir) k, taken ++ [cand (baseName skillDir) k]) ∧
      cand (baseName skillDir) k ∉ taken ∧
      ∀ j, j < k → cand (baseName skillDir) j ∈ taken) ∧
    importFromPath [] "ext1/widget".data true = .ok ("widget".data, ["widget".data]) ∧
    importFromPath ["widget".data] "ext2/widget".data true =
      .ok ("widget-1".data, ["widget".data, "widget-1".data]) := by
  refine ⟨rfl, ?_, rfl, rfl⟩
  obtain ⟨m, hm, heq, hfree, hleast⟩ :=
    probeId_first_free taken (baseName skillDir) (taken.length + 1) 0
      (by
        obtain ⟨m, hm, hfree⟩ := exists_free_cand taken (baseName skillDir)
        exact ⟨m, by omega, by simpa using hfree⟩)
  refine ⟨m, ?_, by simpa using hfree, fun j hj => by simpa using hleast j hj⟩
  simp [importFromPath, importTargetId]
  rw [heq]
  simp

/-- C4: installSkill offers the overwrite choice only when the id already
exists; declining is a no-op on both the library and the ledger; on
proceed the existing skill is updated in place with the remote metadata and
body (other entries untouched); a fresh id is created with the remote
metadata and body whatever the dialog answer would have been; and every
proceeding path upserts the statistics ledger entry for the id, counting
one more install and storing the remote's version when it has one. -/
theorem installSkill_contract (lib libN : List (String × LibEntry))
    (stats : List (String × SkillStats)) (remote : RemoteSkill) (now : Int)
    (e : LibEntry) (other : String) (ans : InstallAnswer)
    (hex : alookup lib remote.id = some e) (hnew : alookup libN remote.id = none)
    (hother : other ≠ remote.id) :
    installSkill lib stats remote .cancel now = (lib, stats) ∧
    alookup (installSkill lib stats remote .overwrite now).1 remote.id =
      some ⟨remote.metadata, remote.body⟩ ∧
    alookup (installSkill lib stats remote .overwrite now).1 other = alookup lib other ∧
    alookup (installSkill lib stats remote .overwrite now).2 remote.id =
      some { installCount :=
               (match alookup stats remote.id with | some s => s.installCount | none => 0) + 1
           , lastInstalledAt := now
           , installedVersion :=
               match remote.metadata.version with
               | some v => some v
               | none =>
                 match alookup stats remote.id with
                 | some s => s.installedVersion
                 | none => none } ∧
    alookup (installSkill libN stats remote ans now).1 remote.id =
      some ⟨remote.metadata, remote.body⟩ ∧
    alookup (installSkill libN stats remote ans now).2 remote.id =
      some { installCount :=
               (match alookup stats remote.id with | some s => s.installCount | none => 0) + 1
           , lastInstalledAt := now
           , installedVersion :=
               match remote.metadata.version with
               | some v => some v
               | none =>
                 match alookup stats remote.id with
                 | some s => s.installedVersion
                 | none => none } := by
  refine ⟨by simp [installSkill, hex], ?_, ?_, ?_, ?_, ?_⟩
  · simp only [installSkill, hex]
    exact alookup_aset_same _ _ _
  · simp only [installSkill, hex]
    exact alookup_aset_other _ _ _ _ hother
  · simp only [installSkill, hex, recordInstall]
    exact alookup_aset_same _ _ _
  · simp only [installSkill, hnew]
    exact alookup_aset_same _ _ _
  · simp only [installSkill, hnew, recordInstall]
    exact alookup_aset_same _ _ _

/-- Witness for the installSkill contract at concrete inputs. -/
theorem installSkill_contract_witness :
    installSkill [("s", ⟨⟨"Old", "d0", none, none, none, none, none, none⟩, "ob"⟩)] []
        ⟨⟨"o/r", "o", "r", "main", "", "lbl", true⟩, "s",
          ⟨"N", "d", none, none, none, some "1.0", none, none⟩, "body", "p", "u"⟩
        .cancel 9 =
      ([("s", ⟨⟨"Old", "d0", none, none, none, none, none, none⟩, "ob"⟩)], []) ∧
    alookup (installSkill [("s", ⟨⟨"Old", "d0", none, none, none, none, none, none⟩, "ob"⟩)] []
        ⟨⟨"o/r", "o", "r", "main", "", "lbl", true⟩, "s",
          ⟨"N", "d", none, none, none, some "1.0", none, none⟩, "body", "p", "u"⟩
        .overwrite 9).1 "s" =
      some ⟨⟨"N", "d", none, none, none, some "1.0", none, none⟩, "body"⟩ ∧
    alookup (installSkill [("s", ⟨⟨"Old", "d0", none, none, none, none, none, none⟩, "ob"⟩)] []
        ⟨⟨"o/r", "o", "r", "main", "", "lbl", true⟩, "s",
          ⟨"N", "d", none, none, none, some "1.0", none, none⟩, "body", "p", "u"⟩
        .overwrite 9).1 "t" =
      alookup [("s", ⟨⟨"Old", "d0", none, none, none, none, none, none⟩, "ob"⟩)] "t" ∧
    alookup (installSkill [("s", ⟨⟨"Old", "d0", none, none, none, none, none, none⟩, "ob"⟩)] []
        ⟨⟨"o/r", "o", "r", "main", "", "lbl", true⟩, "s",
          ⟨"N", "d", none, none, none, some "1.0", none, none⟩, "body", "p", "u"⟩
        .overwrite 9).2 "s" =
      some { installCount := 1, lastInstalledAt := 9, installedVersion := some "1.0" } ∧
    alookup (installSkill [] []
        ⟨⟨"o/r", "o", "r", "main", "", "lbl", true⟩, "s",
          ⟨"N", "d", none, none, none, some "1.0", none, none⟩, "body", "p", "u"⟩
        .cancel 9).1 "s" =
      some ⟨⟨"N", "d", none, none, none, some "1.0", none, none⟩, "body"⟩ ∧
    alookup (installSkill [] []
        ⟨⟨"o/r", "o", "r", "main", "", "lbl", true⟩, "s",
          ⟨"N", "d", none, none, none, some "1.0", none, none⟩, "body", "p", "u"⟩
        .cancel 9).2 "s" =
      some { installCount := 1, lastInstalledAt := 9, installedVersion := some "1.0" } :=
  installSkill_contract
    [("s", ⟨⟨"Old", "d0", none, none, none, none, none, none⟩, "ob"⟩)] [] []
    ⟨⟨"o/r", "o", "r", "main", "", "lbl", true⟩, "s",
      ⟨"N", "d", none, none, none, some "1.0", none, none⟩, "body", "p", "u"⟩
    9 ⟨⟨"Old", "d0", none, none, none, none, none, none⟩, "ob"⟩ "t" .cancel
    (by decide) (by decide) (by decide)

/-- C6 (cache TTL): a fetchSource call finding a cache entry younger than the
five-minute TTL returns the cached list unchanged with zero network calls;
a forced call walks the network (one tree request plus one request per
filtered document) regardless of cache age; and every call that issued any
network request stores the resulting list under the source id with the
current timestamp. -/
theorem fetchSource_cache_ttl (cache cache2 : List (String × CacheEntry))
    (src : MarketplaceSource) (now : Int) (net : Network) (c : CacheEntry) (force : Bool)
    (hhit : alookup cache src.id = some c) (hyoung : now - c.timestamp < CACHE_TTL_MS)
    (hwalk : (fetchSource cache2 src force now net).netCalls ≠ 0) :
    fetchSource cache src false now net = ⟨c.data, cache, 0⟩ ∧
    (fetchSource cache src true now net).netCalls = 1 + (filteredPaths src net).length ∧
    1 ≤ (fetchSource cache src true now net).netCalls ∧
    (fetchSource cache2 src force now net).cache =
      aset cache2 src.id ⟨(fetchSource cache2 src force now net).skills, now⟩ ∧
    alookup (fetchSource cache2 src force now net).cache src.id =
      some ⟨(fetchSource cache2 src force now net).skills, now⟩ := by
  have hw : fetchSource cache2 src force now net = fetchWalk cache2 src now net := by
    by_cases hf : force = false
    · rcases halt : alookup cache2 src.id with _ | c2
      · simp [fetchSource, hf, halt]
      · by_cases ht : now - c2.timestamp < CACHE_TTL_MS
        · exfalso
          apply hwalk
          simp [fetchSource, hf, halt, ht]
        · simp [fetchSource, hf, halt, ht]
    · have hft : force = true := by cases force <;> simp_all
      simp [fetchSource, hft]
  refine ⟨by simp [fetchSource, hhit, hyoung], by simp [fetchSource, fetchWalk],
    by simp [fetchSource, fetchWalk], ?_, ?_⟩
  · rw [hw]
    rfl
  · rw [hw]
    exact alookup_aset_same _ _ _

/-- Witness for the cache TTL theorem at a concrete source, cache and tree. -/
theorem fetchSource_cache_ttl_witness :
    fetchSource [("o/r", ⟨[], 0⟩)] ⟨"o/r", "o", "r", "main", "", "L", true⟩ false 1
        ⟨[⟨"a/SKILL.md", "blob"⟩], fun _ => none⟩ =
      ⟨[], [("o/r", ⟨[], 0⟩)], 0⟩ ∧
    (fetchSource [("o/r", ⟨[], 0⟩)] ⟨"o/r", "o", "r", "main", "", "L", true⟩ true 1
        ⟨[⟨"a/SKILL.md", "blob"⟩], fun _ => none⟩).netCalls =
      1 + (filteredPaths ⟨"o/r", "o", "r", "main", "", "L", true⟩
        ⟨[⟨"a/SKILL.md", "blob"⟩], fun _ => none⟩).length ∧
    1 ≤ (fetchSource [("o/r", ⟨[], 0⟩)] ⟨"o/r", "o", "r", "main", "", "L", true⟩ true 1
        ⟨[⟨"a/SKILL.md", "blob"⟩], fun _ => none⟩).netCalls ∧
    (fetchSource [] ⟨"o/r", "o", "r", "main", "", "L", true⟩ false 1
        ⟨[⟨"a/SKILL.md", "blob"⟩], fun _ => none⟩).cache =
      aset [] "o/r"
        ⟨(fetchSource [] ⟨"o/r", "o", "r", "main", "", "L", true⟩ false 1
            ⟨[⟨"a/SKILL.md", "blob"⟩], fun _ => none⟩).skills, 1⟩ ∧
    alookup (fetchSource [] ⟨"o/r", "o", "r", "main", "", "L", true⟩ false 1
        ⟨[⟨"a/SKILL.md", "blob"⟩], fun _ => none⟩).cache "o/r" =
      some ⟨(fetchSource [] ⟨"o/r", "o", "r", "main", "", "L", true⟩ false 1
          ⟨[⟨"a/SKILL.md", "blob"⟩], fun _ => none⟩).skills, 1⟩ :=
  fetchSource_cache_ttl [("o/r", ⟨[], 0⟩)] [] ⟨"o/r", "o", "r", "main", "", "L", true⟩ 1
    ⟨[⟨"a/SKILL.md", "blob"⟩], fun _ => none⟩ ⟨[], 0⟩ false
    (by decide) (by decide) (by decide)

/-- C8 counterexample: a document whose header carries the unknown top-level
key customKey parses that key into the raw key-value record, but the
metadata object returned by parseFrontmatter carries only the eight known
fields and an empty extension bag: the unknown key is dropped, not
preserved. -/
theorem unknown_key_dropped :
    lookupA (parseSimpleYaml ("name: n\ncustomKey: hello").data) "customKey".data =
      some (.str "hello".data) ∧
    (parseFrontmatter "---\nname: n\ncustomKey: hello\n---\n\nbody\n").1.extra = [] ∧
    (parseFrontmatter "---\nname: n\ncustomKey: hello\n---\n\nbody\n").1 =
      ⟨.str ['n'], .str [], none, none, none, none, none, none, []⟩ :=
  ⟨rfl, rfl, rfl⟩

/-- C8 (amended): the returned metadata's extension bag is always empty; the
extraction literal of parseFrontmatter copies only the eight known fields,
so every unknown top-level key of the parsed header is discarded. -/
theorem extension_bag_always_empty (content : String) (r : List (List Char × YVal)) :
    (parseFrontmatter content).1.extra = [] ∧ (extractMeta r).extra = [] := by
  constructor
  · cases h : matchFM content.data with
    | none => simp [parseFrontmatter, h, defaultMeta]
    | some p =>
      obtain ⟨y, b⟩ := p
      simp [parseFrontmatter, h, extractMeta]
  · rfl

/-- C2 counterexample: in a document carrying both top-level and nested
values for author, version, generatedBy and tags, the parser resolves tags
to the top-level list, not the nested one, while author, version and
generatedBy do resolve to the nested values. -/
theorem nested_precedence_counterexample :
    (parseFrontmatter "---\nname: n\ntags:\n  - a\nauthor: topA\nversion: topV\ngeneratedBy: topG\nmetadata:\n  author: nestA\n  version: nestV\n  generatedBy: nestG\n  tags:\n    - b\n---\n\nbody\n").1.tags =
      some (.arr [['a']]) ∧
    lookupA (parseSimpleYaml ("name: n\ntags:\n  - a\nauthor: topA\nversion: topV\ngeneratedBy: topG\nmetadata:\n  author: nestA\n  version: nestV\n  generatedBy: nestG\n  tags:\n    - b").data)
      kTags = some (.arr [['a']]) ∧
    nestedGet (parseSimpleYaml ("name: n\ntags:\n  - a\nauthor: topA\nversion: topV\ngeneratedBy: topG\nmetadata:\n  author: nestA\n  version: nestV\n  generatedBy: nestG\n  tags:\n    - b").data)
      kTags = some (.arr [['b']]) ∧
    (some (YVal.arr [['a']]) ≠ some (YVal.arr [['b']])) ∧
    (parseFrontmatter "---\nname: n\ntags:\n  - a\nauthor: topA\nversion: topV\ngeneratedBy: topG\nmetadata:\n  author: nestA\n  version: nestV\n  generatedBy: nestG\n  tags:\n    - b\n---\n\nbody\n").1.author =
      some (.str "nestA".data) ∧
    (parseFrontmatter "---\nname: n\ntags:\n  - a\nauthor: topA\nversion: topV\ngeneratedBy: topG\nmetadata:\n  author: nestA\n  version: nestV\n  generatedBy: nestG\n  tags:\n    - b\n---\n\nbody\n").1.version =
      some (.str "nestV".data) ∧
    (parseFrontmatter "---\nname: n\ntags:\n  - a\nauthor: topA\nversion: topV\ngeneratedBy: topG\nmetadata:\n  author: nestA\n  version: nestV\n  generatedBy: nestG\n  tags:\n    - b\n---\n\nbody\n").1.generatedBy =
      some (.str "nestG".data) := by
  refine ⟨rfl, rfl, rfl, ?_, rfl, rfl, rfl⟩
  simp

/-- C2 (amended): at the field-extraction layer of parseFrontmatter, when the
raw header record carries both a top-level and a nested value for a key,
the nested value wins for author, version and generatedBy (the nested
strings being non-empty), while for tags the top-level value wins. -/
theorem nested_precedence_resolved (r fs : List (List Char × YVal))
    (na nv ng : List Char) (tt nt : List (List Char))
    (hmeta : lookupA r kMetadata = some (.obj fs))
    (hna : lookupA fs kAuthor = some (.str na)) (hna0 : na ≠ [])
    (hnv : lookupA fs kVersion = some (.str nv)) (hnv0 : nv ≠ [])
    (hng : lookupA fs kGeneratedBy = some (.str ng))
    (htop : lookupA r kTags = some (.arr tt)) (hnt : lookupA fs kTags = some (.arr nt)) :
    (extractMeta r).author = some (.str na) ∧
    (extractMeta r).version = some (.str nv) ∧
    (extractMeta r).generatedBy = some (.str ng) ∧
    (extractMeta r).tags = some (.arr tt) := by
  have hna1 : na.isEmpty = false := by
    cases na with
    | nil => exact absurd rfl hna0
    | cons a t => rfl
  have hnv1 : nv.isEmpty = false := by
    cases nv with
    | nil => exact absurd rfl hnv0
    | cons a t => rfl
  refine ⟨?_, ?_, ?_, ?_⟩ <;>
    simp [extractMeta, nestedGet, hmeta, hna, hnv, hng, htop, hnt, jsOrOpt, jsTruthy,
      hna1, hnv1]

/-- Witness for the extraction-layer precedence theorem at a concrete raw
header record. -/
theorem nested_precedence_resolved_witness :
    (extractMeta [(kTags, .arr [['a']]), (kAuthor, .str ['t']), (kVersion, .str ['u']),
      (kMetadata, .obj [(kAuthor, .str ['x']), (kVersion, .str ['y']),
        (kGeneratedBy, .str ['z']), (kTags, .arr [['b']])])]).author = some (.str ['x']) ∧
    (extractMeta [(kTags, .arr [['a']]), (kAuthor, .str ['t']), (kVersion, .str ['u']),
      (kMetadata, .obj [(kAuthor, .str ['x']), (kVersion, .str ['y']),
        (kGeneratedBy, .str ['z']), (kTags, .arr [['b']])])]).version = some (.str ['y']) ∧
    (extractMeta [(kTags, .arr [['a']]), (kAuthor, .str ['t']), (kVersion, .str ['u']),
      (kMetadata, .obj [(kAuthor, .str ['x']), (kVersion, .str ['y']),
        (kGeneratedBy, .str ['z']), (kTags, .arr [['b']])])]).generatedBy = some (.str ['z']) ∧
    (extractMeta [(kTags, .arr [['a']]), (kAuthor, .str ['t']), (kVersion, .str ['u']),
      (kMetadata, .obj [(kAuthor, .str ['x']), (kVersion, .str ['y']),
        (kGeneratedBy, .str ['z']), (kTags, .arr [['b']])])]).tags = some (.arr [['a']]) :=
  nested_precedence_resolved
    [(kTags, .arr [['a']]), (kAuthor, .str ['t']), (kVersion, .str ['u']),
      (kMetadata, .obj [(kAuthor, .str ['x']), (kVersion, .str ['y']),
        (kGeneratedBy, .str ['z']), (kTags, .arr [['b']])])]
    [(kAuthor, .str ['x']), (kVersion, .str ['y']), (kGeneratedBy, .str ['z']),
      (kTags, .arr [['b']])]
    ['x'] ['y'] ['z'] [['a']] [['b']]
    rfl rfl (by simp) rfl (by simp) rfl rfl rfl

/-- Dropping from the front is unaffected by a kept last element. -/
theorem dropWhile_append_last (p : Char → Bool) (x : List Char) (c : Char)
    (hc : p c = false) : List.dropWhile p (x ++ [c]) = List.dropWhile p x ++ [c] := by
  induction x with
  | nil => simp [List.dropWhile, hc]
  | cons a t ih =>
    by_cases ha : p a
    · simp [List.dropWhile, ha, ih]
    · simp [List.dropWhile, ha]

/-- Trailing trim keeps a non-whitespace head. -/
theorem trimR_cons (c : Char) (t : List Char) (hc : isWsChar c = false) :
    trimR (c :: t) = c :: trimR t := by
  unfold trimR
  rw [show (c :: t).reverse = t.reverse ++ [c] by simp,
    dropWhile_append_last _ _ _ hc]
  simp

/-- Trailing trim of a list whose last element is not whitespace. -/
theorem trimR_eq_self (l : List Char) (h : isWsChar (l.getLastD 'x') = false) :
    trimR l = l := by
  rcases List.eq_nil_or_concat l with rfl | ⟨l', c, rfl⟩
  · rfl
  · simp only [List.concat_eq_append] at h ⊢
    rw [List.getLastD_concat] at h
    unfold trimR
    rw [show (l' ++ [c]).reverse = c :: l'.reverse by simp, List.dropWhile_cons]
    simp [h]

/-- Trailing trim removes a trailing whitespace character. -/
theorem trimR_concat_ws (l : List Char) (c : Char) (hc : isWsChar c = true) :
    trimR (l ++ [c]) = trimR l := by
  unfold trimR
  rw [show (l ++ [c]).reverse = c :: l.reverse by simp, List.dropWhile_cons]
  simp [hc]

/-- Leading trim keeps a non-whitespace head. -/
theorem trimL_cons_neg (c : Char) (t : List Char) (hc : isWsChar c = false) :
    trimL (c :: t) = c :: t := by
  unfold trimL
  rw [List.dropWhile_cons]
  simp [hc]

/-- Leading trim drops a whitespace head. -/
theorem trimL_cons_pos (c : Char) (t : List Char) (hc : isWsChar c = true) :
    trimL (c :: t) = trimL t := by
  unfold trimL
  rw [List.dropWhile_cons]
  simp [hc]

/-- Trim of a list already trimmed on both ends. -/
theorem jsTrim_eq_self (l : List Char) (hh : isWsChar (l.headD 'x') = false)
    (hl : isWsChar (l.getLastD 'x') = false) : jsTrim l = l := by
  cases l with
  | nil => rfl
  | cons c t =>
    unfold jsTrim
    rw [trimL_cons_neg c t (by simpa using hh)]
    exact trimR_eq_self _ hl

/-- Trim absorbs a leading whitespace character. -/
theorem jsTrim_cons_ws (c : Char) (t : List Char) (hc : isWsChar c = true) :
    jsTrim (c :: t) = jsTrim t := by
  unfold jsTrim
  rw [trimL_cons_pos c t hc]

/-- Unpacking of the plain-value predicate. -/
theorem plain_spec (l : List Char) (h : isPlainL l = true) :
    l ≠ [] ∧ isWsChar (l.headD 'x') = false ∧ isWsChar (l.getLastD 'x') = false ∧
      (∀ c ∈ l, okChar c = true) ∧ l ≠ ['|'] := by
  cases l with
  | nil => simp [isPlainL] at h
  | cons c t =>
    simp only [isPlainL, Bool.and_eq_true, decide_eq_true_eq, List.all_eq_true] at h
    exact ⟨by simp, by simpa using h.1.1.1, by simpa using h.1.1.2, h.1.2, h.2⟩

/-- Allowed characters are never newlines. -/
theorem okChar_ne_nl (c : Char) (h : okChar c = true) : c ≠ '\n' := by
  rintro rfl
  simp [okChar, isWsChar] at h

/-- Allowed characters are never single quotes. -/
theorem okChar_ne_squote (c : Char) (h : okChar c = true) : c ≠ '\'' := by
  rintro rfl
  simp [okChar] at h

/-- Allowed characters are never double quotes. -/
theorem okChar_ne_dquote (c : Char) (h : okChar c = true) : c ≠ '"' := by
  rintro rfl
  simp [okChar] at h

/-- Plain values are already trimmed. -/
theorem jsTrim_plain (l : List Char) (h : isPlainL l = true) : jsTrim l = l := by
  obtain ⟨-, hh, hl, -, -⟩ := plain_spec l h
  exact jsTrim_eq_self l hh hl

/-- Plain values satisfy the parser-side value conditions. -/
theorem plain_valOk (l : List Char) (h : isPlainL l = true) : valOkB l = true := by
  obtain ⟨h0, hh, hl, -, hp⟩ := plain_spec l h
  cases l with
  | nil => exact absurd rfl h0
  | cons c t => simp_all [valOkB]

/-- First-colon split of a key, a colon, and the remainder. -/
theorem breakColon_key (k r : List Char) (hk : ∀ c ∈ k, c ≠ ':') :
    breakColon (k ++ ':' :: r) = some (k, r) := by
  induction k with
  | nil => simp [breakColon]
  | cons c t ih =>
    have hc : c ≠ ':' := hk c (by simp)
    have ih' := ih fun d hd => hk d (by simp [hd])
    simp [breakColon, hc, ih']

/-- Unquoting leaves a plain value unchanged (its ends are not quotes). -/
theorem unquote_plain (v : List Char) (h : isPlainL v = true) : unquote v = v := by
  obtain ⟨h0, -, -, hok, -⟩ := plain_spec v h
  cases v with
  | nil => exact absurd rfl h0
  | cons c t =>
    have hsq : c ≠ '\'' := okChar_ne_squote c (hok c (by simp))
    have hdq : c ≠ '"' := okChar_ne_dquote c (hok c (by simp))
    have h1 : pfxOf ['\''] (c :: t) = false := by
      simp only [pfxOf]
      simp only [eq_false (fun hh : '\'' = c => hsq hh.symm)]
      simp
    have h2 : pfxOf ['"'] (c :: t) = false := by
      simp only [pfxOf]
      simp only [eq_false (fun hh : '"' = c => hdq hh.symm)]
      simp
    unfold unquote
    rw [h1, h2]
    simp

/-- Unquoting strips a matched pair of single quotes. -/
theorem unquote_squote (v : List Char) : unquote ('\'' :: (v ++ ['\''])) = v := by
  have h1 : pfxOf ['\''] ('\'' :: (v ++ ['\''])) = true := by simp [pfxOf]
  have h2 : sfxOf ['\''] ('\'' :: (v ++ ['\''])) = true := by
    unfold sfxOf
    rw [show ('\'' :: (v ++ ['\''])).reverse = '\'' :: (v.reverse ++ ['\'']) by simp]
    simp [pfxOf]
  unfold unquote
  rw [h1, h2]
  simp

/-- Unquoting strips a matched pair of double quotes. -/
theorem unquote_dquote (v : List Char) : unquote ('"' :: (v ++ ['"'])) = v := by
  have h2 : sfxOf ['"'] ('"' :: (v ++ ['"'])) = true := by
    unfold sfxOf
    rw [show ('"' :: (v ++ ['"'])).reverse = '"' :: (v.reverse ++ ['"']) by simp]
    simp [pfxOf]
  have h1 : pfxOf ['"'] ('"' :: (v ++ ['"'])) = true := by simp [pfxOf]
  unfold unquote
  rw [h1, h2]
  simp

/-- Escaping double quotes does nothing to a value that has none. -/
theorem escQ_id (v : List Char) (h : ∀ c ∈ v, c ≠ '"') : escQ v = v := by
  induction v with
  | nil => rfl
  | cons c t ih =>
    simp [escQ, h c (by simp), ih fun d hd => h d (by simp [hd])]

/-- The serializer's quoting followed by the parser's unquoting restores a
plain value (and the empty value). -/
theorem unquote_quoteYamlValue (d : List Char) (h : isPlainL d = true ∨ d = []) :
    unquote (quoteYamlValue d) = d := by
  rcases h with h | rfl
  · obtain ⟨h0, -, -, hok, -⟩ := plain_spec d h
    unfold quoteYamlValue
    by_cases ht : d.any isTriggerChar
    · rw [if_pos ht, escQ_id d fun c hc => okChar_ne_dquote c (hok c hc)]
      exact unquote_dquote d
    · rw [if_neg ht]
      exact unquote_plain d h
  · rfl

/-- The split of a newline-free list is that single line. -/
theorem splitNl_nlFree (l : List Char) (h : '\n' ∉ l) : splitNl l = [l] := by
  induction l with
  | nil => rfl
  | cons c t ih =>
    have hc : c ≠ '\n' := by rintro rfl; exact h (by simp)
    rw [splitNl, ih (fun hm => h (by simp [hm]))]
    simp [hc]

/-- The split always has at least one piece. -/
theorem splitNl_ne_nil (l : List Char) : splitNl l ≠ [] := by
  cases l with
  | nil => simp [splitNl]
  | cons c t =>
    rw [splitNl]
    rcases hs : splitNl t with _ | ⟨h1, r⟩
    · simp
    · by_cases hc : c = '\n' <;> simp [hc]

/-- Splitting after a newline-free first line peels it off. -/
theorem splitNl_append (l r : List Char) (h : '\n' ∉ l) :
    splitNl (l ++ '\n' :: r) = l :: splitNl r := by
  induction l with
  | nil =>
    rw [List.nil_append, splitNl]
    rcases hs : splitNl r with _ | ⟨h1, t⟩
    · exact absurd hs (splitNl_ne_nil r)
    · simp
  | cons c t ih =>
    have hc : c ≠ '\n' := by rintro rfl; exact h (by simp)
    rw [List.cons_append, splitNl, ih (fun hm => h (by simp [hm]))]
    simp [hc]

/-- Two-line-or-more join unfolding. -/
theorem joinNl_cons₂ (l a : List Char) (t : List (List Char)) :
    joinNl (l :: a :: t) = l ++ '\n' :: joinNl (a :: t) := rfl

/-- Join distributes over an append of non-empty line lists. -/
theorem joinNl_append (x y : List (List Char)) (hx : x ≠ []) (hy : y ≠ []) :
    joinNl (x ++ y) = joinNl x ++ '\n' :: joinNl y := by
  induction x with
  | nil => exact absurd rfl hx
  | cons l t ih =>
    cases t with
    | nil =>
      cases y with
      | nil => exact absurd rfl hy
      | cons a s => simp [joinNl_cons₂, joinNl]
    | cons a s =>
      rw [List.cons_append, joinNl_cons₂, show (a :: s) ++ y = a :: (s ++ y) from rfl]
      rw [show joinNl (l :: a :: (s ++ y)) = l ++ '\n' :: joinNl (a :: (s ++ y)) from rfl]
      rw [show (a :: (s ++ y)) = (a :: s) ++ y from rfl, ih (by simp)]
      simp

/-- Splitting a join of newline-free lines restores the lines. -/
theorem splitNl_joinNl (lines : List (List Char)) (h0 : lines ≠ [])
    (h : ∀ l ∈ lines, '\n' ∉ l) : splitNl (joinNl lines) = lines := by
  induction lines with
  | nil => exact absurd rfl h0
  | cons l t ih =>
    cases t with
    | nil => exact splitNl_nlFree l (h l (by simp))
    | cons a s =>
      rw [joinNl_cons₂, splitNl_append _ _ (h l (by simp)),
        ih (by simp) (fun x hx => h x (by simp [hx]))]

/-- A newline-free list is scan-safe. -/
theorem scanSafe_nlFree (l : List Char) (h : '\n' ∉ l) : scanSafe l = true := by
  induction l with
  | nil => rfl
  | cons c t ih =>
    have hc : c ≠ '\n' := by rintro rfl; exact h (by simp)
    simp [scanSafe, hc, ih fun hm => h (by simp [hm])]

/-- Scanning skips over a leading newline-free chunk. -/
theorem scanSafe_append_nlFree (l r : List Char) (h : '\n' ∉ l) :
    scanSafe (l ++ r) = scanSafe r := by
  induction l with
  | nil => rfl
  | cons c t ih =>
    have hc : c ≠ '\n' := by rintro rfl; exact h (by simp)
    rw [List.cons_append]
    simp only [scanSafe]
    rw [ih fun hm => h (by simp [hm])]
    simp [hc]

/-- A join of non-empty newline-free lines, none starting with a dash, is
scan-safe: after every newline comes the next line's non-dash head. -/
theorem scanSafe_joinNl (H : List (List Char))
    (h : ∀ l ∈ H, l ≠ [] ∧ l.headD 'x' ≠ '-' ∧ '\n' ∉ l) :
    scanSafe (joinNl H) = true := by
  induction H with
  | nil => rfl
  | cons l t ih =>
    cases t with
    | nil => exact scanSafe_nlFree l (h l (by simp)).2.2
    | cons a s =>
      rw [joinNl_cons₂, scanSafe_append_nlFree _ _ (h l (by simp)).2.2]
      obtain ⟨ha0, hah, hanl⟩ := h a (by simp)
      cases a with
      | nil => exact absurd rfl ha0
      | cons c u =>
        have hcd : c ≠ '-' := by simpa using hah
        have hcn : c ≠ '\n' := by rintro rfl; exact hanl (by simp)
        obtain ⟨w, hw⟩ : ∃ w, joinNl ((c :: u) :: s) = c :: (u ++ w) := by
          cases s with
          | nil => exact ⟨[], by simp [joinNl]⟩
          | cons a' s' => exact ⟨'\n' :: joinNl (a' :: s'), by simp [joinNl_cons₂]⟩
        have hih := ih fun x hx => h x (by simp [hx])
        rw [hw] at hih ⊢
        simp only [scanSafe] at hih ⊢
        simp only [if_neg hcn, Bool.true_and] at hih
        simp [hcd, hcn, hih]

/-- The candidate list of the opening whitespace run stops at a
non-whitespace head. -/
theorem nlCandsAsc_nonWs (c : Char) (t : List Char) (hc : isWsChar c = false) :
    nlCandsAsc (c :: t) = [] := by
  simp [nlCandsAsc, hc]

/-- Unfolding of the last-newline search at a newline head. -/
theorem lastNl_cons_nl (t : List Char) :
    lastNl ('\n' :: t) =
      (match lastNl t with | some i => some (i + 1) | none => some 0) := by
  simp only [lastNl]
  simp [show isWsChar '\n' = true by decide]

/-- The last-newline search stops at a non-whitespace head. -/
theorem lastNl_cons_nonWs (c : Char) (t : List Char) (hc : isWsChar c = false) :
    lastNl (c :: t) = none := by
  simp only [lastNl, hc]
  simp

/-- The closing whitespace-newline match for the serialized tail: a newline,
a blank line, the trimmed body and the final newline. -/
theorem closeWs_body (T : List Char)
    (hT : T = [] ∨ isWsChar (T.headD 'x') = false) :
    closeWs ('\n' :: '\n' :: (T ++ ['\n'])) =
      some (if T.isEmpty then [] else T ++ ['\n']) := by
  rcases hT with rfl | hT
  · rfl
  · cases T with
    | nil => rfl
    | cons c u =>
      have hc : isWsChar c = false := by simpa using hT
      have h0 : lastNl ((c :: u) ++ ['\n']) = none := by
        rw [List.cons_append]
        exact lastNl_cons_nonWs c _ hc
      have h1 : lastNl ('\n' :: ((c :: u) ++ ['\n'])) = some 0 := by
        rw [lastNl_cons_nl, h0]
      have h2 : lastNl ('\n' :: '\n' :: ((c :: u) ++ ['\n'])) = some 1 := by
        rw [lastNl_cons_nl, h1]
      simp only [closeWs, h2]
      simp

/-- The lazy body scan runs over a scan-safe group-one, then matches the
closing delimiter. -/
theorem bodyScan_skip (g : List Char) (u acc g2 : List Char)
    (hs : scanSafe g = true) (hc : closeWs u = some g2) :
    bodyScan acc (g ++ '\n' :: '-' :: '-' :: '-' :: u) = some (acc ++ g, g2) := by
  induction g generalizing acc with
  | nil =>
    rw [List.nil_append, bodyScan]
    simp [pfxOf, hc]
  | cons c t ih =>
    rw [List.cons_append, bodyScan]
    by_cases hnl : c = '\n'
    · subst hnl
      simp only [scanSafe] at hs
      cases t with
      | nil => simp at hs
      | cons d t' =>
        simp only [Bool.and_eq_true, decide_eq_true_eq] at hs
        have hd : d ≠ '-' := by
          have := hs.1
          simpa using this
        have hp : pfxOf ['-', '-', '-'] ((d :: t') ++ '\n' :: '-' :: '-' :: '-' :: u) = false := by
          simp only [List.cons_append, pfxOf]
          simp [eq_false (fun hh : '-' = d => hd hh.symm)]
        rw [hp]
        simp only [Bool.and_false, Bool.false_eq_true, if_neg (by simp : ¬False)]
        have := ih (acc ++ ['\n']) hs.2
        simpa using this
    · have hcond : (decide (c = '\n') && pfxOf ['-', '-', '-'] (t ++ '\n' :: '-' :: '-' :: '-' :: u)) = false := by
        simp [hnl]
      simp only [scanSafe] at hs
      simp only [if_neg hnl, Bool.true_and] at hs
      have := ih (acc ++ [c]) hs
      simp only [hcond]
      simp only [Bool.false_eq_true, if_neg (by simp : ¬False)]
      simpa using this

/-- Join unfolding at a non-empty tail. -/
theorem joinNl_cons_ne (x : List Char) (r : List (List Char)) (hr : r ≠ []) :
    joinNl (x :: r) = x ++ '\n' :: joinNl r := by
  cases r with
  | nil => exact absurd rfl hr
  | cons a s => exact joinNl_cons₂ x a s

/-- Character-level layout of the serialized document: opening delimiter,
joined header, closing delimiter, blank line, trimmed body, final newline. -/
theorem joinNl_serializeLines (m : SkillMetadata) (b : List Char) :
    joinNl (serializeLines m b) =
      '-' :: '-' :: '-' :: '\n' ::
        (joinNl (headerLines m) ++
          '\n' :: '-' :: '-' :: '-' :: '\n' :: '\n' :: (jsTrim b ++ ['\n'])) := by
  have hH : headerLines m ≠ [] := by unfold headerLines; simp
  have h4 : joinNl [['-', '-', '-'], [], jsTrim b, []] =
      '-' :: '-' :: '-' :: '\n' :: '\n' :: (jsTrim b ++ ['\n']) := by
    rw [joinNl_cons₂, joinNl_cons₂, joinNl_cons₂]
    simp [joinNl]
  unfold serializeLines
  rw [joinNl_cons_ne _ _ (by simp), joinNl_append (headerLines m) _ hH (by simp), h4]
  simp

/-- The frontmatter regex matcher on a serialized document: capture group one
is the joined header, capture group two the trimmed body with its trailing
newline (empty when the trimmed body is empty). -/
theorem matchFM_serialized (c0 : Char) (l0 : List Char) (restH : List (List Char))
    (T : List Char)
    (hlines : ∀ l ∈ (c0 :: l0) :: restH, l ≠ [] ∧ l.headD 'x' ≠ '-' ∧ '\n' ∉ l)
    (hc0 : isWsChar c0 = false)
    (hT : T = [] ∨ isWsChar (T.headD 'x') = false) :
    matchFM ('-' :: '-' :: '-' :: '\n' ::
        (joinNl ((c0 :: l0) :: restH) ++
          '\n' :: '-' :: '-' :: '-' :: '\n' :: '\n' :: (T ++ ['\n']))) =
      some (joinNl ((c0 :: l0) :: restH), if T.isEmpty then [] else T ++ ['\n']) := by
  obtain ⟨w, hw⟩ : ∃ w, joinNl ((c0 :: l0) :: restH) = c0 :: w := by
    cases restH with
    | nil => exact ⟨l0, by simp [joinNl]⟩
    | cons a s => exact ⟨l0 ++ '\n' :: joinNl (a :: s), by simp [joinNl_cons₂]⟩
  have hcands : nlCandsAsc ('\n' ::
      (joinNl ((c0 :: l0) :: restH) ++
        '\n' :: '-' :: '-' :: '-' :: '\n' :: '\n' :: (T ++ ['\n']))) = [0] := by
    rw [hw, List.cons_append]
    simp [nlCandsAsc, hc0, show isWsChar '\n' = true by decide]
  have hscan : bodyScan []
      (joinNl ((c0 :: l0) :: restH) ++
        '\n' :: '-' :: '-' :: '-' :: ('\n' :: '\n' :: (T ++ ['\n']))) =
      some (joinNl ((c0 :: l0) :: restH), if T.isEmpty then [] else T ++ ['\n']) := by
    rw [bodyScan_skip _ _ _ _ (scanSafe_joinNl _ hlines) (closeWs_body T hT)]
    simp
  unfold matchFM
  rw [if_pos (by simp [pfxOf])]
  simp only [List.drop_succ_cons, List.drop_zero, hcands]
  unfold tryOpens
  simp only [List.reverse_cons, List.reverse_nil, List.nil_append]
  rw [show ('\n' ::
      (joinNl ((c0 :: l0) :: restH) ++
        '\n' :: '-' :: '-' :: '-' :: '\n' :: '\n' :: (T ++ ['\n']))).drop (0 + 1) =
      joinNl ((c0 :: l0) :: restH) ++
        '\n' :: '-' :: '-' :: '-' :: ('\n' :: '\n' :: (T ++ ['\n'])) from rfl]
  rw [hscan]

/-- Setting a key and reading it back. -/
theorem lookupA_setA_same (r : List (List Char × YVal)) (k : List Char) (v : YVal) :
    lookupA (setA r k v) k = some v := by
  induction r with
  | nil => simp [setA, lookupA]
  | cons h t ih =>
    obtain ⟨k', v'⟩ := h
    by_cases hk : k' = k
    · simp [setA, lookupA, hk]
    · simp [setA, lookupA, hk, ih]

/-- Setting a key leaves other keys unchanged. -/
theorem lookupA_setA_other (r : List (List Char × YVal)) (k other : List Char) (v : YVal)
    (h : other ≠ k) : lookupA (setA r k v) other = lookupA r other := by
  have hne : ¬(k = other) := fun hh => h hh.symm
  induction r with
  | nil => simp [setA, lookupA, hne]
  | cons hd t ih =>
    obtain ⟨k', v'⟩ := hd
    by_cases hk : k' = k
    · subst hk
      simp [setA, lookupA, hne]
    · simp [setA, lookupA, hk, ih]

/-- Overwriting a key collapses to the last write. -/
theorem setA_setA_same (r : List (List Char × YVal)) (k : List Char) (v w : YVal) :
    setA (setA r k v) k w = setA r k w := by
  induction r with
  | nil => simp [setA]
  | cons h t ih =>
    obtain ⟨k', v'⟩ := h
    by_cases hk : k' = k
    · simp [setA, hk]
    · simp [setA, hk, ih]

/-- Setting an absent key appends it. -/
theorem setA_fresh (r : List (List Char × YVal)) (k : List Char) (v : YVal)
    (h : lookupA r k = none) : setA r k v = r ++ [(k, v)] := by
  induction r with
  | nil => simp [setA]
  | cons hd t ih =>
    obtain ⟨k', v'⟩ := hd
    by_cases hk : k' = k
    · simp [lookupA, hk] at h
    · rw [lookupA] at h
      simp only [if_neg hk] at h
      simp [setA, hk, ih h]

/-- Head of an append with a non-empty left part. -/
theorem headD_append_left (a b : List Char) (ha : a ≠ []) (d : Char) :
    (a ++ b).headD d = a.headD d := by
  cases a with
  | nil => exact absurd rfl ha
  | cons c t => rfl

/-- The default never matters for the last element of a non-empty list. -/
theorem getLastD_irrel (b : List Char) (hb : b ≠ []) (d e : Char) :
    b.getLastD d = b.getLastD e := by
  cases b with
  | nil => exact absurd rfl hb
  | cons c t =>
    cases t with
    | nil => rfl
    | cons c2 t2 => simp only [List.getLastD_cons]

/-- Last element of an append with a non-empty right part. -/
theorem getLastD_append_right (a b : List Char) (hb : b ≠ []) (d : Char) :
    (a ++ b).getLastD d = b.getLastD d := by
  induction a generalizing d with
  | nil => rfl
  | cons x a' ih =>
    rw [List.cons_append, List.getLastD_cons, ih]
    exact getLastD_irrel b hb x d

/-- Unpacking of the key side conditions. -/
theorem goodKey_spec (k : List Char) (h : goodKeyB k = true) :
    k ≠ [] ∧ (∀ c ∈ k, c ≠ ':') ∧ isWsChar (k.headD 'x') = false ∧
      isWsChar (k.getLastD 'x') = false ∧ k.headD 'x' ≠ '#' ∧ k.headD 'x' ≠ '-' := by
  simp only [goodKeyB, Bool.and_eq_true, decide_eq_true_eq, List.all_eq_true,
    Bool.not_eq_true', List.isEmpty_eq_false] at h
  refine ⟨h.1.1.1.1.1, fun c hc => by simpa using h.1.1.1.1.2 c hc, h.1.1.1.2, h.1.1.2,
    h.1.2, h.2⟩

/-- Unpacking of the value side conditions. -/
theorem valOk_spec (v : List Char) (h : valOkB v = true) :
    v ≠ [] ∧ isWsChar (v.headD 'x') = false ∧ isWsChar (v.getLastD 'x') = false ∧
      v ≠ ['|'] := by
  simp only [valOkB, Bool.and_eq_true, decide_eq_true_eq, Bool.not_eq_true',
    List.isEmpty_eq_false] at h
  exact ⟨h.1.1.1, h.1.1.2, h.1.2, h.2⟩

/-- One-character front test failing on a different head. -/
theorem pfx_single_false (q c : Char) (t : List Char) (h : c ≠ q) :
    pfxOf [q] (c :: t) = false := by
  simp only [pfxOf]
  simp [eq_false (fun hh : q = c => h hh.symm)]

/-- Two-character front test failing on a different head. -/
theorem pfx_pair_false (q1 q2 c : Char) (t : List Char) (h : c ≠ q1) :
    pfxOf [q1, q2] (c :: t) = false := by
  simp only [pfxOf]
  simp [eq_false (fun hh : q1 = c => h hh.symm)]

/-- Last element of a colon-space-value tail. -/
theorem getLastD_colon_tail (v : List Char) (hv : v ≠ []) (d : Char) :
    (':' :: ' ' :: v).getLastD d = v.getLastD d := by
  rw [List.getLastD_cons, List.getLastD_cons]
  exact getLastD_irrel v hv ' ' d

/-- Processing a top-level scalar line: flush, resolve a pending empty key,
then assign the unquoted value under the key. -/
theorem procLine_scalar_line (S : PState) (k v : List Char)
    (hk : goodKeyB k = true) (hv : valOkB v = true) :
    procLine S (k ++ ':' :: ' ' :: v) =
      { result := setA (resolvePending (flushList S)).result k (.str (unquote v)),
        currentKey := [], hasObj := false, listKey := k,
        listItems := (resolvePending (flushList S)).listItems } := by
  obtain ⟨hk0, hkcol, hkh, hkl, hkhash, hkdash⟩ := goodKey_spec k hk
  obtain ⟨hv0, hvh, hvl, hvp⟩ := valOk_spec v hv
  obtain ⟨kc, kt, rfl⟩ := List.exists_cons_of_ne_nil hk0
  have hkc : isWsChar kc = false := by simpa using hkh
  have hlast : ((kc :: kt) ++ ':' :: ' ' :: v).getLastD 'x' = v.getLastD 'x' := by
    rw [getLastD_append_right _ _ (by simp), getLastD_colon_tail v hv0]
  have htrim : jsTrim ((kc :: kt) ++ ':' :: ' ' :: v) = (kc :: kt) ++ ':' :: ' ' :: v :=
    jsTrim_eq_self _ (by simpa using hkh) (by rw [hlast]; exact hvl)
  have htrimL : trimL ((kc :: kt) ++ ':' :: ' ' :: v) = (kc :: kt) ++ ':' :: ' ' :: v := by
    rw [List.cons_append]
    exact trimL_cons_neg _ _ hkc
  have hbc : breakColon ((kc :: kt) ++ ':' :: (' ' :: v)) = some (kc :: kt, ' ' :: v) :=
    breakColon_key _ _ hkcol
  have hkeytrim : jsTrim (kc :: kt) = kc :: kt :=
    jsTrim_eq_self _ (by simpa using hkh) hkl
  have hvaltrim : jsTrim (' ' :: v) = v := by
    rw [jsTrim_cons_ws _ _ (by decide)]
    exact jsTrim_eq_self v hvh hvl
  have hhash : pfxOf ['#'] ((kc :: kt) ++ ':' :: ' ' :: v) = false := by
    rw [List.cons_append]
    exact pfx_single_false _ _ _ (by simpa using hkhash)
  have hdash : pfxOf ['-', ' '] ((kc :: kt) ++ ':' :: ' ' :: v) = false := by
    rw [List.cons_append]
    exact pfx_pair_false _ _ _ _ (by simpa using hkdash)
  unfold procLine
  simp only [htrim, htrimL, hbc, hkeytrim, hvaltrim, hhash, hdash, Nat.sub_self]
  simp [hv0, hvp, eq_false hv0, eq_false hvp]

/-- Flushing and resolving a settled state yields its record, with no pending
list items left. -/
theorem settled_fields (S : PState) (r : List (List Char × YVal)) (h : Settles S r) :
    (resolvePending (flushList S)).result = r ∧
      (resolvePending (flushList S)).listItems = [] := by
  cases h with
  | a r lk =>
    simp [stA, flushList, resolvePending]
  | b r k hb hk =>
    have h1 : flushList (stB r k) = stB r k := by simp [flushList, stB]
    rw [h1]
    simp [resolvePending, stB, hk, objFieldsAt, hb]
  | t r items ht hne =>
    have h1 : flushList (stT r items) =
        { result := setA r kTags (.arr items), currentKey := [], hasObj := false,
          listKey := [], listItems := [] } := by
      have hkt : kTags ≠ ([] : List Char) := by decide
      simp [flushList, stT, hne, hkt]
    rw [h1]
    simp [resolvePending]
  | m r hm =>
    have h1 : flushList (stM r) = stM r := by simp [flushList, stM]
    rw [h1]
    simp [resolvePending, stM, hm]

/-- Processing a line that trims to a bare key and colon: flush, resolve a
pending empty key, then open an empty object placeholder under the key. -/
theorem procLine_open_line (S : PState) (line k : List Char)
    (hk : goodKeyB k = true)
    (ht : jsTrim line = k ++ [':'])
    (hl : trimL line = line) :
    procLine S line =
      { result := setA (resolvePending (flushList S)).result k (.obj []),
        currentKey := k, hasObj := true, listKey := k,
        listItems := (resolvePending (flushList S)).listItems } := by
  obtain ⟨hk0, hkcol, hkh, hkl, hkhash, hkdash⟩ := goodKey_spec k hk
  obtain ⟨kc, kt, rfl⟩ := List.exists_cons_of_ne_nil hk0
  have hbc : breakColon ((kc :: kt) ++ ':' :: ([] : List Char)) = some (kc :: kt, []) :=
    breakColon_key _ _ hkcol
  have hkeytrim : jsTrim (kc :: kt) = kc :: kt :=
    jsTrim_eq_self _ (by simpa using hkh) hkl
  have hhash : pfxOf ['#'] ((kc :: kt) ++ [':']) = false := by
    rw [List.cons_append]
    exact pfx_single_false _ _ _ (by simpa using hkhash)
  have hdash : pfxOf ['-', ' '] ((kc :: kt) ++ [':']) = false := by
    rw [List.cons_append]
    exact pfx_pair_false _ _ _ _ (by simpa using hkdash)
  have hvaltrim : jsTrim ([] : List Char) = [] := rfl
  unfold procLine
  simp only [ht, hl, hbc, hkeytrim, hvaltrim, hhash, hdash, Nat.sub_self]
  simp

/-- Processing a key line with no value text at all. -/
theorem procLine_key_line (S : PState) (k : List Char) (hk : goodKeyB k = true) :
    procLine S (k ++ [':']) =
      { result := setA (resolvePending (flushList S)).result k (.obj []),
        currentKey := k, hasObj := true, listKey := k,
        listItems := (resolvePending (flushList S)).listItems } := by
  obtain ⟨hk0, -, hkh, -, -, -⟩ := goodKey_spec k hk
  obtain ⟨kc, kt, rfl⟩ := List.exists_cons_of_ne_nil hk0
  apply procLine_open_line S _ _ hk
  · exact jsTrim_eq_self _
      (by rw [headD_append_left _ _ (by simp)]; simpa using hkh)
      (by rw [getLastD_append_right _ _ (by simp)]; decide)
  · rw [List.cons_append]
    exact trimL_cons_neg _ _ (by simpa using hkh)

/-- Processing a key line whose emitted value is empty (key, colon, and one
trailing space). -/
theorem procLine_keysp_line (S : PState) (k : List Char) (hk : goodKeyB k = true) :
    procLine S (k ++ [':', ' ']) =
      { result := setA (resolvePending (flushList S)).result k (.obj []),
        currentKey := k, hasObj := true, listKey := k,
        listItems := (resolvePending (flushList S)).listItems } := by
  obtain ⟨hk0, -, hkh, -, -, -⟩ := goodKey_spec k hk
  obtain ⟨kc, kt, rfl⟩ := List.exists_cons_of_ne_nil hk0
  apply procLine_open_line S _ _ hk
  · have h1 : trimL ((kc :: kt) ++ [':', ' ']) = (kc :: kt) ++ [':', ' '] := by
      rw [List.cons_append]
      exact trimL_cons_neg _ _ (by simpa using hkh)
    unfold jsTrim
    rw [h1, show (kc :: kt) ++ [':', ' '] = ((kc :: kt) ++ [':']) ++ [' '] by simp,
      trimR_concat_ws _ _ (by decide)]
    exact trimR_eq_self _ (by rw [getLastD_append_right _ _ (by simp)]; decide)
  · rw [List.cons_append]
    exact trimL_cons_neg _ _ (by simpa using hkh)

/-- Processing a two-space-indented dash item line: the trimmed item text is
appended to the pending list items, everything else untouched. -/
theorem procLine_item_line (S : PState) (v : List Char) (hv : isPlainL v = true) :
    procLine S (' ' :: ' ' :: '-' :: ' ' :: v) =
      { S with listItems := S.listItems ++ [v] } := by
  obtain ⟨hv0, hvh, hvl, -, -⟩ := plain_spec v hv
  have hlast : ('-' :: ' ' :: v).getLastD 'x' = v.getLastD 'x' := by
    rw [List.getLastD_cons, List.getLastD_cons]
    exact getLastD_irrel v hv0 ' ' 'x'
  have ht : jsTrim (' ' :: ' ' :: '-' :: ' ' :: v) = '-' :: ' ' :: v := by
    rw [jsTrim_cons_ws _ _ (by decide), jsTrim_cons_ws _ _ (by decide)]
    exact jsTrim_eq_self _ (by rw [List.headD_cons]; decide) (by rw [hlast]; exact hvl)
  have hdash : pfxOf ['-', ' '] ('-' :: ' ' :: v) = true := by simp [pfxOf]
  have hhash : pfxOf ['#'] ('-' :: ' ' :: v) = false := pfx_single_false _ _ _ (by decide)
  have hdrop : ('-' :: ' ' :: v).drop 2 = v := rfl
  have hvt : jsTrim v = v := jsTrim_eq_self v hvh hvl
  unfold procLine
  simp only [ht, hdash, hhash, hdrop, hvt]
  simp

/-- Processing a two-space-indented nested scalar line inside the metadata
block: the open object gains the key with the unquoted value. -/
theorem procLine_nested_line (r : List (List Char × YVal)) (k v : List Char)
    (hk : goodKeyB k = true) (hv : valOkB v = true) :
    procLine (stM r) (' ' :: ' ' :: (k ++ ':' :: ' ' :: v)) =
      stM (setA r kMetadata
        (.obj (setA (objFieldsAt r kMetadata) k (.str (unquote v))))) := by
  obtain ⟨hk0, hkcol, hkh, hkl, hkhash, hkdash⟩ := goodKey_spec k hk
  obtain ⟨hv0, hvh, hvl, hvp⟩ := valOk_spec v hv
  obtain ⟨kc, kt, rfl⟩ := List.exists_cons_of_ne_nil hk0
  have hkc : isWsChar kc = false := by simpa using hkh
  have hlast : ((kc :: kt) ++ ':' :: ' ' :: v).getLastD 'x' = v.getLastD 'x' := by
    rw [getLastD_append_right _ _ (by simp), getLastD_colon_tail v hv0]
  have htrim : jsTrim (' ' :: ' ' :: ((kc :: kt) ++ ':' :: ' ' :: v)) =
      (kc :: kt) ++ ':' :: ' ' :: v := by
    rw [jsTrim_cons_ws _ _ (by decide), jsTrim_cons_ws _ _ (by decide)]
    exact jsTrim_eq_self _
      (by rw [headD_append_left _ _ (by simp)]; simpa using hkh)
      (by rw [hlast]; exact hvl)
  have htrimL : trimL (' ' :: ' ' :: ((kc :: kt) ++ ':' :: ' ' :: v)) =
      (kc :: kt) ++ ':' :: ' ' :: v := by
    rw [trimL_cons_pos _ _ (by decide), trimL_cons_pos _ _ (by decide), List.cons_append]
    exact trimL_cons_neg _ _ hkc
  have hind : (' ' :: ' ' :: ((kc :: kt) ++ ':' :: ' ' :: v)).length -
      ((kc :: kt) ++ ':' :: ' ' :: v).length = 2 := by
    simp
  have hbc : breakColon ((kc :: kt) ++ ':' :: (' ' :: v)) = some (kc :: kt, ' ' :: v) :=
    breakColon_key _ _ hkcol
  have hkeytrim : jsTrim (kc :: kt) = kc :: kt :=
    jsTrim_eq_self _ (by simpa using hkh) hkl
  have hvaltrim : jsTrim (' ' :: v) = v := by
    rw [jsTrim_cons_ws _ _ (by decide)]
    exact jsTrim_eq_self v hvh hvl
  have hflush : flushList (stM r) = stM r := by simp [flushList, stM]
  have hhash : pfxOf ['#'] ((kc :: kt) ++ ':' :: ' ' :: v) = false := by
    rw [List.cons_append]
    exact pfx_single_false _ _ _ (by simpa using hkhash)
  have hdash : pfxOf ['-', ' '] ((kc :: kt) ++ ':' :: ' ' :: v) = false := by
    rw [List.cons_append]
    exact pfx_pair_false _ _ _ _ (by simpa using hkdash)
  unfold procLine
  simp only [htrim, htrimL, hind, hbc, hkeytrim, hvaltrim, hflush, hhash, hdash]
  simp [stM, hv0, hvp, eq_false hv0, eq_false hvp,
    show kMetadata ≠ ([] : List Char) by decide]

/-- String emptiness agrees with emptiness of its character list. -/
theorem str_isEmpty_eq (s : String) : s.isEmpty = s.data.isEmpty := by
  cases s with
  | mk d =>
    cases d with
    | nil => rfl
    | cons c t =>
      simp only [List.isEmpty]
      simp only [String.isEmpty, String.endPos, String.utf8ByteSize, String.utf8ByteSize.go]
      have h := Char.utf8Size_pos c
      have hb : ((⟨String.utf8ByteSize.go t + c.utf8Size⟩ : String.Pos) == 0) = false := by
        apply beq_false_of_ne
        intro hh
        have := congrArg String.Pos.byteIdx hh
        simp at this
        omega
      rw [hb]

/-- Line folding distributes over appended line blocks. -/
theorem runLines_append (S : PState) (a b : List (List Char)) :
    runLines S (a ++ b) = runLines (runLines S a) b := by
  simp [runLines, List.foldl_append]

/-- Scalar line from a settled state: the record gains the unquoted value. -/
theorem scalar_step (S : PState) (r : List (List Char × YVal)) (k v : List Char)
    (hS : Settles S r) (hk : goodKeyB k = true) (hv : valOkB v = true) :
    procLine S (k ++ ':' :: ' ' :: v) = stA (setA r k (.str (unquote v))) k := by
  obtain ⟨h1, h2⟩ := settled_fields S r hS
  rw [procLine_scalar_line S k v hk hv, h1, h2]
  rfl

/-- Key-only line from a settled state: an empty object placeholder opens. -/
theorem key_step (S : PState) (r : List (List Char × YVal)) (k : List Char)
    (hS : Settles S r) (hk : goodKeyB k = true) :
    procLine S (k ++ [':']) = stB (setA r k (.obj [])) k := by
  obtain ⟨h1, h2⟩ := settled_fields S r hS
  rw [procLine_key_line S k hk, h1, h2]
  rfl

/-- Key line with an empty emitted value from a settled state. -/
theorem keysp_step (S : PState) (r : List (List Char × YVal)) (k : List Char)
    (hS : Settles S r) (hk : goodKeyB k = true) :
    procLine S (k ++ [':', ' ']) = stB (setA r k (.obj [])) k := by
  obtain ⟨h1, h2⟩ := settled_fields S r hS
  rw [procLine_keysp_line S k hk, h1, h2]
  rfl

/-- The freshly opened tags placeholder is the empty tags-block state. -/
theorem stB_tags (r : List (List Char × YVal)) : stB r kTags = stT r [] := rfl

/-- The freshly opened metadata placeholder is the metadata-block state. -/
theorem stB_meta (r : List (List Char × YVal)) : stB r kMetadata = stM r := rfl

/-- Dash item line inside the tags block appends the item. -/
theorem item_step (r : List (List Char × YVal)) (items : List (List Char)) (v : List Char)
    (hv : isPlainL v = true) :
    procLine (stT r items) (' ' :: ' ' :: '-' :: ' ' :: v) = stT r (items ++ [v]) := by
  rw [procLine_item_line _ _ hv]
  rfl

/-- Assignment never produces the empty record. -/
theorem setA_ne_nil (r : List (List Char × YVal)) (k : List Char) (v : YVal) :
    setA r k v ≠ [] := by
  cases r with
  | nil => simp [setA]
  | cons h t =>
    obtain ⟨k', v'⟩ := h
    by_cases hk : k' = k <;> simp [setA, hk]

/-- Writing back the value already stored is the identity. -/
theorem setA_self (r : List (List Char × YVal)) (k : List Char) (v : YVal)
    (h : lookupA r k = some v) : setA r k v = r := by
  induction r with
  | nil => simp [lookupA] at h
  | cons hd t ih =>
    obtain ⟨k', v'⟩ := hd
    by_cases hk : k' = k
    · subst hk
      simp [lookupA] at h
      simp [setA, h]
    · rw [lookupA] at h
      simp only [if_neg hk] at h
      simp [setA, hk, ih h]

/-- Field folding distributes over appended pair blocks. -/
theorem fieldFold_append (fs : List (List Char × YVal))
    (a b : List (List Char × List Char)) :
    fieldFold fs (a ++ b) = fieldFold (fieldFold fs a) b := by
  simp [fieldFold, List.foldl_append]

/-- Field folding leaves keys it never writes unchanged. -/
theorem lookupA_fieldFold (ps : List (List Char × List Char)) (k : List Char)
    (h : ∀ p ∈ ps, p.1 ≠ k) :
    ∀ fs : List (List Char × YVal), lookupA (fieldFold fs ps) k = lookupA fs k := by
  induction ps with
  | nil => intro fs; rfl
  | cons p rest ih =>
    intro fs
    rw [show fieldFold fs (p :: rest) = fieldFold (setA fs p.1 (.str (unquote p.2))) rest
      from rfl, ih (fun q hq => h q (by simp [hq])) _]
    exact lookupA_setA_other _ _ _ _ (Ne.symm (h p (by simp)))

/-- A non-empty field record stays non-empty under folding. -/
theorem fieldFold_ne_nil (ps : List (List Char × List Char)) :
    ∀ fs : List (List Char × YVal), fs ≠ [] → fieldFold fs ps ≠ [] := by
  induction ps with
  | nil => exact fun fs h => h
  | cons p rest ih =>
    intro fs _
    exact ih _ (setA_ne_nil fs p.1 (.str (unquote p.2)))

/-- Line folding steps through the first line. -/
theorem runLines_cons (S : PState) (l : List Char) (ls : List (List Char)) :
    runLines S (l :: ls) = runLines (procLine S l) ls := rfl

/-- The serializer's quoting always yields a parser-acceptable value. -/
theorem quote_valOk (d : List Char) (h : isPlainL d = true) :
    valOkB (quoteYamlValue d) = true := by
  unfold quoteYamlValue
  by_cases ht : d.any isTriggerChar
  · rw [if_pos ht]
    have hlast : ('"' :: (escQ d ++ ['"'])).getLastD 'x' = '"' := by
      rw [List.getLastD_cons, getLastD_append_right _ _ (by simp)]
      rfl
    have hws : isWsChar '"' = false := by decide
    unfold valOkB
    rw [hlast]
    simp [hws]
  · rw [if_neg ht]
    exact plain_valOk d h

/-- A single-quoted value is always parser-acceptable. -/
theorem squote_valOk (s : List Char) : valOkB ('\'' :: (s ++ ['\''])) = true := by
  have hlast : ('\'' :: (s ++ ['\''])).getLastD 'x' = '\'' := by
    rw [List.getLastD_cons, getLastD_append_right _ _ (by simp)]
    rfl
  have hws : isWsChar '\'' = false := by decide
  unfold valOkB
  rw [hlast]
  simp [hws]

/-- Block transfer for one optional unquoted scalar line. -/
theorem optRaw_block (S : PState) (r : List (List Char × YVal)) (k : List Char)
    (o : Option String) (hS : Settles S r) (hk : goodKeyB k = true)
    (ho : optPlainB o = true) :
    Settles (runLines S (optLineRaw k o)) (optSetStr r k o) := by
  cases o with
  | none => simpa [optLineRaw, runLines, optSetStr] using hS
  | some s =>
    have hp : isPlainL s.data = true := by simpa [optPlainB] using ho
    have hne : s.data ≠ [] := (plain_spec _ hp).1
    have hs : s.isEmpty = false := by
      rw [str_isEmpty_eq]
      simpa using hne
    have hline : optLineRaw k (some s) = [k ++ ':' :: ' ' :: s.data] := by
      simp [optLineRaw, hs]
    have hset : optSetStr r k (some s) = setA r k (.str s.data) := by
      simp [optSetStr, hs]
    rw [hline, hset, runLines_cons]
    rw [scalar_step S r k s.data hS hk (plain_valOk _ hp), unquote_plain _ hp]
    exact Settles.a _ _

/-- Block transfer for one optional quoted scalar line. -/
theorem optQuoted_block (S : PState) (r : List (List Char × YVal)) (k : List Char)
    (o : Option String) (hS : Settles S r) (hk : goodKeyB k = true)
    (ho : optPlainB o = true) :
    Settles (runLines S (optLineQuoted k o)) (optSetStr r k o) := by
  cases o with
  | none => simpa [optLineQuoted, runLines, optSetStr] using hS
  | some s =>
    have hp : isPlainL s.data = true := by simpa [optPlainB] using ho
    have hne : s.data ≠ [] := (plain_spec _ hp).1
    have hs : s.isEmpty = false := by
      rw [str_isEmpty_eq]
      simpa using hne
    have hline : optLineQuoted k (some s) = [k ++ ':' :: ' ' :: quoteYamlValue s.data] := by
      simp [optLineQuoted, hs]
    have hset : optSetStr r k (some s) = setA r k (.str s.data) := by
      simp [optSetStr, hs]
    rw [hline, hset, runLines_cons]
    rw [scalar_step S r k _ hS hk (quote_valOk _ hp), unquote_quoteYamlValue _ (Or.inl hp)]
    exact Settles.a _ _

/-- Running the dash item lines of the tags block appends all the items. -/
theorem tags_items_run (r : List (List Char × YVal)) (ts : List String)
    (hts : ∀ t ∈ ts, isPlainL t.data = true) :
    ∀ items : List (List Char),
      runLines (stT r items) (ts.map (fun t => ' ' :: ' ' :: '-' :: ' ' :: t.data)) =
        stT r (items ++ ts.map (fun t => t.data)) := by
  induction ts with
  | nil => intro items; simp [runLines]
  | cons t rest ih =>
    intro items
    simp only [List.map_cons]
    rw [runLines_cons, item_step r items t.data (hts t (by simp)),
      ih (fun q hq => hts q (by simp [hq])) (items ++ [t.data])]
    simp

/-- Block transfer for the tags block. -/
theorem tags_block (S : PState) (r : List (List Char × YVal)) (o : Option (List String))
    (hS : Settles S r) (ho : tagsPlainB o = true) :
    Settles (runLines S (tagLines o)) (tagsSet r o) := by
  cases o with
  | none => simpa [tagLines, runLines, tagsSet] using hS
  | some ts =>
    simp only [tagsPlainB, Bool.and_eq_true, Bool.not_eq_true', List.all_eq_true] at ho
    have hne : ts ≠ [] := by
      intro hh
      rw [hh] at ho
      simp at ho
    have hts : ∀ t ∈ ts, isPlainL t.data = true := fun t ht => ho.2 t ht
    have hempty : ts.isEmpty = false := by simpa using hne
    have hline : tagLines (some ts) =
        (kTags ++ [':']) :: ts.map (fun t => ' ' :: ' ' :: '-' :: ' ' :: t.data) := by
      simp [tagLines, hempty]
    have hset : tagsSet r (some ts) = setA r kTags (.arr (ts.map (fun t => t.data))) := by
      simp [tagsSet, hempty]
    rw [hline, hset, runLines_cons, key_step S r kTags hS (by decide), stB_tags,
      tags_items_run _ ts hts [], List.nil_append]
    have hmap : ts.map (fun t => t.data) ≠ [] := by simpa using hne
    have hsettle := Settles.t (setA r kTags (.obj [])) (ts.map (fun t => t.data))
      (lookupA_setA_same r kTags (.obj [])) hmap
    rw [setA_setA_same] at hsettle
    exact hsettle

/-- Rendering one optional unquoted nested pair as its line. -/
theorem nested_map_raw (k : List Char) (o : Option String) :
    ((match o with
      | some s => if s.isEmpty then [] else [(k, s.data)]
      | none => ([] : List (List Char × List Char))).map nestedLine) =
      optNestedRaw k o := by
  cases o with
  | none => rfl
  | some s =>
    by_cases hs : s.isEmpty <;> simp [optNestedRaw, hs, nestedLine]

/-- Rendering one optional single-quoted nested pair as its line. -/
theorem nested_map_quoted (k : List Char) (o : Option String) :
    ((match o with
      | some s => if s.isEmpty then [] else [(k, '\'' :: (s.data ++ ['\'']))]
      | none => ([] : List (List Char × List Char))).map nestedLine) =
      optNestedQuoted k o := by
  cases o with
  | none => rfl
  | some s =>
    by_cases hs : s.isEmpty <;> simp [optNestedQuoted, hs, nestedLine]

/-- The emitted nested block is exactly the rendered nested pairs. -/
theorem nested_map (m : SkillMetadata) :
    (nestedPairs m).map nestedLine =
      optNestedRaw kAuthor m.author ++ optNestedQuoted kVersion m.version ++
        optNestedQuoted kGeneratedBy m.generatedBy := by
  unfold nestedPairs
  rw [List.map_append, List.map_append, nested_map_raw, nested_map_quoted,
    nested_map_quoted]

/-- Running the nested value lines folds the assignments into the open
metadata object. -/
theorem meta_items_run (ps : List (List Char × List Char))
    (hps : ∀ p ∈ ps, goodKeyB p.1 = true ∧ valOkB p.2 = true) :
    ∀ (r fs : List (List Char × YVal)), lookupA r kMetadata = some (.obj fs) →
      runLines (stM r) (ps.map nestedLine) =
        stM (setA r kMetadata (.obj (fieldFold fs ps))) := by
  induction ps with
  | nil =>
    intro r fs hr
    simp only [List.map_nil]
    rw [show runLines (stM r) [] = stM r from rfl,
      show fieldFold fs [] = fs from rfl, setA_self r kMetadata (.obj fs) hr]
  | cons p rest ih =>
    intro r fs hr
    obtain ⟨k, v⟩ := p
    have hp := hps ⟨k, v⟩ (by simp)
    simp only [List.map_cons]
    rw [runLines_cons, show nestedLine (k, v) = ' ' :: ' ' :: (k ++ ':' :: ' ' :: v) from rfl,
      procLine_nested_line r k v hp.1 hp.2,
      show objFieldsAt r kMetadata = fs by simp [objFieldsAt, hr]]
    rw [ih (fun q hq => hps q (by simp [hq])) _ _
      (lookupA_setA_same r kMetadata (.obj (setA fs k (.str (unquote v)))))]
    rw [setA_setA_same]
    rfl

/-- Block transfer for the nested metadata block. -/
theorem meta_block (S : PState) (r : List (List Char × YVal)) (m : SkillMetadata)
    (hS : Settles S r)
    (hauth : optPlainB m.author = true)
    (hver : optPlainB m.version = true)
    (hgen : optPlainB m.generatedBy = true) :
    Settles (runLines S (metaLines m)) (metaSet r m) := by
  by_cases hc : (optTruthy m.author || optTruthy m.version || optTruthy m.generatedBy) = true
  · have hline : metaLines m = (kMetadata ++ [':']) :: (nestedPairs m).map nestedLine := by
      rw [metaLines, if_pos hc, nested_map]
    have hset : metaSet r m = setA r kMetadata (.obj (fieldFold [] (nestedPairs m))) := by
      rw [metaSet, if_pos hc]
    have hps : ∀ p ∈ nestedPairs m, goodKeyB p.1 = true ∧ valOkB p.2 = true := by
      intro p hp
      unfold nestedPairs at hp
      simp only [List.mem_append] at hp
      rcases hp with (hp | hp) | hp
      · cases ha : m.author with
        | none => rw [ha] at hp; simp at hp
        | some s =>
          rw [ha] at hp
          by_cases hs : s.isEmpty
          · simp [hs] at hp
          · simp [hs] at hp
            subst hp
            have hplain : isPlainL s.data = true := by
              rw [ha] at hauth
              simpa [optPlainB] using hauth
            constructor
            · show goodKeyB kAuthor = true
              decide
            · show valOkB s.data = true
              exact plain_valOk _ hplain
      · cases ha : m.version with
        | none => rw [ha] at hp; simp at hp
        | some s =>
          rw [ha] at hp
          by_cases hs : s.isEmpty
          · simp [hs] at hp
          · simp [hs] at hp
            subst hp
            constructor
            · show goodKeyB kVersion = true
              decide
            · show valOkB ('\'' :: (s.data ++ ['\''])) = true
              exact squote_valOk _
      · cases ha : m.generatedBy with
        | none => rw [ha] at hp; simp at hp
        | some s =>
          rw [ha] at hp
          by_cases hs : s.isEmpty
          · simp [hs] at hp
          · simp [hs] at hp
            subst hp
            constructor
            · show goodKeyB kGeneratedBy = true
              decide
            · show valOkB ('\'' :: (s.data ++ ['\''])) = true
              exact squote_valOk _
    have hpairs_ne : nestedPairs m ≠ [] := by
      unfold nestedPairs
      simp only [Bool.or_eq_true] at hc
      rcases hc with (hc | hc) | hc
      · cases ha : m.author with
        | none => rw [ha] at hc; simp [optTruthy] at hc
        | some s =>
          rw [ha] at hc
          have hs : s.isEmpty = false := by simpa [optTruthy] using hc
          simp [hs]
      · cases ha : m.version with
        | none => rw [ha] at hc; simp [optTruthy] at hc
        | some s =>
          rw [ha] at hc
          have hs : s.isEmpty = false := by simpa [optTruthy] using hc
          simp [hs]
      · cases ha : m.generatedBy with
        | none => rw [ha] at hc; simp [optTruthy] at hc
        | some s =>
          rw [ha] at hc
          have hs : s.isEmpty = false := by simpa [optTruthy] using hc
          simp [hs]
    rw [hline, hset, runLines_cons, key_step S r kMetadata hS (by decide), stB_meta,
      meta_items_run _ hps _ [] (lookupA_setA_same r kMetadata (.obj []))]
    rw [setA_setA_same]
    apply Settles.m
    rw [show objFieldsAt (setA r kMetadata (.obj (fieldFold [] (nestedPairs m)))) kMetadata
        = fieldFold [] (nestedPairs m) by simp [objFieldsAt, lookupA_setA_same]]
    cases hps2 : nestedPairs m with
    | nil => exact absurd hps2 hpairs_ne
    | cons p rest =>
      have hnn : fieldFold [] (p :: rest) ≠ [] := by
        rw [show fieldFold [] (p :: rest) =
          fieldFold [(p.1, .str (unquote p.2))] rest from rfl]
        exact fieldFold_ne_nil rest _ (by simp)
      simpa using hnn
  · have hc' : (optTruthy m.author || optTruthy m.version || optTruthy m.generatedBy) = false := by
      simpa using hc
    rw [metaLines, if_neg (by simp [hc']), metaSet, if_neg (by simp [hc'])]
    simpa [runLines] using hS

/-- Folding no lines is the identity. -/
theorem runLines_nil (S : PState) : runLines S [] = S := rfl

/-- Plain values contain no newline. -/
theorem plain_nl_free (l : List Char) (h : isPlainL l = true) : '\n' ∉ l :=
  fun hmem => okChar_ne_nl _ ((plain_spec l h).2.2.2.1 _ hmem) rfl

/-- Quote escaping introduces no newline. -/
theorem escQ_nl_free (l : List Char) (h : '\n' ∉ l) : '\n' ∉ escQ l := by
  induction l with
  | nil => simp [escQ]
  | cons c t ih =>
    have hct : '\n' ∉ t := fun hm => h (by simp [hm])
    have hc : c ≠ '\n' := fun hm => h (by simp [hm])
    by_cases hq : c = '"'
    · subst hq
      simp only [escQ, if_pos rfl]
      intro hmem
      rcases List.mem_cons.mp hmem with hh | hmem
      · exact absurd hh (by decide)
      rcases List.mem_cons.mp hmem with hh | hmem
      · exact absurd hh (by decide)
      exact ih hct hmem
    · simp only [escQ, if_neg hq]
      intro hmem
      rcases List.mem_cons.mp hmem with hh | hmem
      · exact hc hh.symm
      exact ih hct hmem

/-- The serializer's quoting introduces no newline. -/
theorem quote_nl_free (d : List Char) (h : '\n' ∉ d) : '\n' ∉ quoteYamlValue d := by
  unfold quoteYamlValue
  split_ifs with ht
  · intro hmem
    rcases List.mem_cons.mp hmem with hh | hmem
    · exact absurd hh (by decide)
    rcases List.mem_append.mp hmem with hh | hh
    · exact escQ_nl_free d h hh
    · simp at hh
  · exact h

/-- A top-level scalar line is non-empty, does not start with a dash, and has
no newline. -/
theorem line_scalar_good (k v : List Char) (hk0 : k ≠ []) (hkh : k.headD 'x' ≠ '-')
    (hknl : '\n' ∉ k) (hvnl : '\n' ∉ v) :
    (k ++ ':' :: ' ' :: v) ≠ [] ∧ (k ++ ':' :: ' ' :: v).headD 'x' ≠ '-' ∧
      '\n' ∉ (k ++ ':' :: ' ' :: v) := by
  refine ⟨by simp, ?_, ?_⟩
  · rw [headD_append_left _ _ hk0]
    exact hkh
  · intro hmem
    rcases List.mem_append.mp hmem with hh | hmem
    · exact hknl hh
    rcases List.mem_cons.mp hmem with hh | hmem
    · exact absurd hh (by decide)
    rcases List.mem_cons.mp hmem with hh | hmem
    · exact absurd hh (by decide)
    exact hvnl hmem

/-- A bare key line is non-empty, does not start with a dash, and has no
newline. -/
theorem line_key_good (k : List Char) (hk0 : k ≠ []) (hkh : k.headD 'x' ≠ '-')
    (hknl : '\n' ∉ k) :
    (k ++ [':']) ≠ [] ∧ (k ++ [':']).headD 'x' ≠ '-' ∧ '\n' ∉ (k ++ [':']) := by
  refine ⟨by simp, ?_, ?_⟩
  · rw [headD_append_left _ _ hk0]
    exact hkh
  · intro hmem
    rcases List.mem_append.mp hmem with hh | hh
    · exact hknl hh
    · simp at hh

/-- A dash item line is non-empty, starts with a space, and has no newline. -/
theorem line_item_good (v : List Char) (hvnl : '\n' ∉ v) :
    (' ' :: ' ' :: '-' :: ' ' :: v) ≠ [] ∧
      (' ' :: ' ' :: '-' :: ' ' :: v).headD 'x' ≠ '-' ∧
      '\n' ∉ (' ' :: ' ' :: '-' :: ' ' :: v) := by
  refine ⟨by simp, by rw [List.headD_cons]; decide, ?_⟩
  intro hmem
  rcases List.mem_cons.mp hmem with hh | hmem
  · exact absurd hh (by decide)
  rcases List.mem_cons.mp hmem with hh | hmem
  · exact absurd hh (by decide)
  rcases List.mem_cons.mp hmem with hh | hmem
  · exact absurd hh (by decide)
  rcases List.mem_cons.mp hmem with hh | hmem
  · exact absurd hh (by decide)
  exact hvnl hmem

/-- A nested scalar line is non-empty, starts with a space, and has no
newline. -/
theorem line_nested_good (k v : List Char) (hknl : '\n' ∉ k) (hvnl : '\n' ∉ v) :
    (' ' :: ' ' :: (k ++ ':' :: ' ' :: v)) ≠ [] ∧
      (' ' :: ' ' :: (k ++ ':' :: ' ' :: v)).headD 'x' ≠ '-' ∧
      '\n' ∉ (' ' :: ' ' :: (k ++ ':' :: ' ' :: v)) := by
  refine ⟨by simp, by rw [List.headD_cons]; decide, ?_⟩
  intro hmem
  rcases List.mem_cons.mp hmem with hh | hmem
  · exact absurd hh (by decide)
  rcases List.mem_cons.mp hmem with hh | hmem
  · exact absurd hh (by decide)
  rcases List.mem_append.mp hmem with hh | hmem
  · exact hknl hh
  rcases List.mem_cons.mp hmem with hh | hmem
  · exact absurd hh (by decide)
  rcases List.mem_cons.mp hmem with hh | hmem
  · exact absurd hh (by decide)
  exact hvnl hmem

/-- A single-quoted value has a newline exactly when its content does. -/
theorem squote_nl_free (s : List Char) (h : '\n' ∉ s) :
    '\n' ∉ ('\'' :: (s ++ ['\''])) := by
  intro hmem
  rcases List.mem_cons.mp hmem with hh | hmem
  · exact absurd hh (by decide)
  rcases List.mem_append.mp hmem with hh | hh
  · exact h hh
  · simp at hh

/-- Goodness of the optional unquoted scalar block's lines. -/
theorem optRaw_good (k : List Char) (o : Option String) (hk0 : k ≠ [])
    (hkh : k.headD 'x' ≠ '-') (hknl : '\n' ∉ k) (ho : optPlainB o = true) :
    ∀ l ∈ optLineRaw k o, l ≠ [] ∧ l.headD 'x' ≠ '-' ∧ '\n' ∉ l := by
  intro l hl
  cases o with
  | none => simp [optLineRaw] at hl
  | some s =>
    have hp : isPlainL s.data = true := by simpa [optPlainB] using ho
    have hs : s.isEmpty = false := by
      rw [str_isEmpty_eq]
      simpa using (plain_spec _ hp).1
    simp only [optLineRaw, hs, Bool.false_eq_true, if_false, List.mem_singleton] at hl
    subst hl
    exact line_scalar_good k s.data hk0 hkh hknl (plain_nl_free _ hp)

/-- Goodness of the optional quoted scalar block's lines. -/
theorem optQuoted_good (k : List Char) (o : Option String) (hk0 : k ≠ [])
    (hkh : k.headD 'x' ≠ '-') (hknl : '\n' ∉ k) (ho : optPlainB o = true) :
    ∀ l ∈ optLineQuoted k o, l ≠ [] ∧ l.headD 'x' ≠ '-' ∧ '\n' ∉ l := by
  intro l hl
  cases o with
  | none => simp [optLineQuoted] at hl
  | some s =>
    have hp : isPlainL s.data = true := by simpa [optPlainB] using ho
    have hs : s.isEmpty = false := by
      rw [str_isEmpty_eq]
      simpa using (plain_spec _ hp).1
    simp only [optLineQuoted, hs, Bool.false_eq_true, if_false, List.mem_singleton] at hl
    subst hl
    exact line_scalar_good k _ hk0 hkh hknl (quote_nl_free _ (plain_nl_free _ hp))

/-- Goodness of the tags block's lines. -/
theorem tagLines_good (o : Option (List String)) (ho : tagsPlainB o = true) :
    ∀ l ∈ tagLines o, l ≠ [] ∧ l.headD 'x' ≠ '-' ∧ '\n' ∉ l := by
  intro l hl
  cases o with
  | none => simp [tagLines] at hl
  | some ts =>
    simp only [tagsPlainB, Bool.and_eq_true, Bool.not_eq_true', List.all_eq_true] at ho
    rw [tagLines, if_neg (by simp [ho.1])] at hl
    rcases List.mem_cons.mp hl with rfl | hl
    · exact line_key_good kTags (by decide) (by decide) (by decide)
    · obtain ⟨t, ht, rfl⟩ := List.mem_map.mp hl
      exact line_item_good t.data (plain_nl_free _ (ho.2 t ht))

/-- Goodness of the optional unquoted nested block's lines. -/
theorem optNestedRaw_good (k : List Char) (o : Option String) (hknl : '\n' ∉ k)
    (ho : optPlainB o = true) :
    ∀ l ∈ optNestedRaw k o, l ≠ [] ∧ l.headD 'x' ≠ '-' ∧ '\n' ∉ l := by
  intro l hl
  cases o with
  | none => simp [optNestedRaw] at hl
  | some s =>
    have hp : isPlainL s.data = true := by simpa [optPlainB] using ho
    have hs : s.isEmpty = false := by
      rw [str_isEmpty_eq]
      simpa using (plain_spec _ hp).1
    simp only [optNestedRaw, hs, Bool.false_eq_true, if_false, List.mem_singleton] at hl
    subst hl
    exact line_nested_good k s.data hknl (plain_nl_free _ hp)

/-- Goodness of the optional quoted nested block's lines. -/
theorem optNestedQuoted_good (k : List Char) (o : Option String) (hknl : '\n' ∉ k)
    (ho : optPlainB o = true) :
    ∀ l ∈ optNestedQuoted k o, l ≠ [] ∧ l.headD 'x' ≠ '-' ∧ '\n' ∉ l := by
  intro l hl
  cases o with
  | none => simp [optNestedQuoted] at hl
  | some s =>
    have hp : isPlainL s.data = true := by simpa [optPlainB] using ho
    have hs : s.isEmpty = false := by
      rw [str_isEmpty_eq]
      simpa using (plain_spec _ hp).1
    simp only [optNestedQuoted, hs, Bool.false_eq_true, if_false, List.mem_singleton] at hl
    subst hl
    exact line_nested_good k _ hknl (squote_nl_free _ (plain_nl_free _ hp))

/-- Goodness of the nested metadata block's lines. -/
theorem metaLines_good (m : SkillMetadata) (hauth : optPlainB m.author = true)
    (hver : optPlainB m.version = true) (hgen : optPlainB m.generatedBy = true) :
    ∀ l ∈ metaLines m, l ≠ [] ∧ l.headD 'x' ≠ '-' ∧ '\n' ∉ l := by
  intro l hl
  unfold metaLines at hl
  split_ifs at hl
  · rcases List.mem_cons.mp hl with rfl | hl
    · exact line_key_good kMetadata (by decide) (by decide) (by decide)
    rcases List.mem_append.mp hl with hl | hl
    rcases List.mem_append.mp hl with hl | hl
    · exact optNestedRaw_good kAuthor m.author (by decide) hauth l hl
    · exact optNestedQuoted_good kVersion m.version (by decide) hver l hl
    · exact optNestedQuoted_good kGeneratedBy m.generatedBy (by decide) hgen l hl
  · simp at hl

/-- Every emitted header line of a representable record is non-empty, never
starts with a dash, and contains no newline. -/
theorem headerLines_good (m : SkillMetadata) (h : Representable m = true) :
    ∀ l ∈ headerLines m, l ≠ [] ∧ l.headD 'x' ≠ '-' ∧ '\n' ∉ l := by
  simp only [Representable, Bool.and_eq_true] at h
  obtain ⟨⟨⟨⟨⟨⟨⟨hname, hdesc⟩, hlic⟩, hcompat⟩, hauth⟩, hver⟩, hgen⟩, htags⟩ := h
  intro l hl
  unfold headerLines at hl
  rcases List.mem_cons.mp hl with rfl | hl
  · exact line_scalar_good kName m.name.data (by decide) (by decide) (by decide)
      (plain_nl_free _ hname)
  rcases List.mem_cons.mp hl with rfl | hl
  · refine line_scalar_good kDescription _ (by decide) (by decide) (by decide) ?_
    apply quote_nl_free
    rcases (Bool.or_eq_true _ _).mp hdesc with hh | hh
    · have hdata : m.description.data = [] := by
        rw [str_isEmpty_eq] at hh
        simpa using hh
      rw [hdata]
      simp
    · exact plain_nl_free _ hh
  rcases List.mem_append.mp hl with hl | hl
  rcases List.mem_append.mp hl with hl | hl
  rcases List.mem_append.mp hl with hl | hl
  · exact optRaw_good kLicense m.license (by decide) (by decide) (by decide) hlic l hl
  · exact optQuoted_good kCompatibility m.compatibility (by decide) (by decide)
      (by decide) hcompat l hl
  · exact tagLines_good m.tags htags l hl
  · exact metaLines_good m hauth hver hgen l hl

/-- The header line fold from the initial state settles to the expected
header record. -/
theorem header_settles (m : SkillMetadata) (h : Representable m = true) :
    Settles (runLines (stA [] []) (headerLines m)) (headerResult m) := by
  simp only [Representable, Bool.and_eq_true] at h
  obtain ⟨⟨⟨⟨⟨⟨⟨hname, hdesc⟩, hlic⟩, hcompat⟩, hauth⟩, hver⟩, hgen⟩, htags⟩ := h
  have hbase : Settles
      (runLines (stA [] [])
        [kName ++ ':' :: ' ' :: m.name.data,
         kDescription ++ ':' :: ' ' :: quoteYamlValue m.description.data])
      (setA (setA [] kName (.str m.name.data)) kDescription (.str m.description.data)) := by
    rw [runLines_cons, scalar_step (stA [] []) [] kName m.name.data (Settles.a [] [])
      (by decide) (plain_valOk _ hname), unquote_plain _ hname, runLines_cons, runLines_nil]
    by_cases hde : m.description.isEmpty = true
    · have hdata : m.description.data = [] := by
        rw [str_isEmpty_eq] at hde
        simpa using hde
      rw [hdata, show quoteYamlValue [] = [] from rfl,
        show kDescription ++ ':' :: ' ' :: ([] : List Char) = kDescription ++ [':', ' ']
          from rfl,
        keysp_step _ _ kDescription (Settles.a _ _) (by decide)]
      have hsettle := Settles.b (setA (setA [] kName (.str m.name.data)) kDescription
        (.obj [])) kDescription (lookupA_setA_same _ _ _) (by decide)
      rw [setA_setA_same] at hsettle
      exact hsettle
    · have hplain : isPlainL m.description.data = true := by
        rcases (Bool.or_eq_true _ _).mp hdesc with hh | hh
        · exact absurd hh hde
        · exact hh
      rw [scalar_step _ _ kDescription _ (Settles.a _ _) (by decide)
        (quote_valOk _ hplain), unquote_quoteYamlValue _ (Or.inl hplain)]
      exact Settles.a _ _
  have hchain :
      runLines (stA [] []) (headerLines m) =
        runLines (runLines (runLines (runLines (runLines (stA [] [])
          [kName ++ ':' :: ' ' :: m.name.data,
           kDescription ++ ':' :: ' ' :: quoteYamlValue m.description.data])
          (optLineRaw kLicense m.license)) (optLineQuoted kCompatibility m.compatibility))
          (tagLines m.tags)) (metaLines m) := by
    unfold headerLines
    simp [runLines, List.foldl_append]
  rw [hchain]
  unfold headerResult
  exact meta_block _ _ m
    (tags_block _ _ m.tags
      (optQuoted_block _ _ kCompatibility m.compatibility
        (optRaw_block _ _ kLicense m.license hbase (by decide) hlic)
        (by decide) hcompat)
      htags)
    hauth hver hgen

/-- Parsing the joined header of a representable record yields the expected
header record. -/
theorem header_parse (m : SkillMetadata) (h : Representable m = true) :
    parseSimpleYaml (joinNl (headerLines m)) = headerResult m := by
  have hnl : ∀ l ∈ headerLines m, '\n' ∉ l := fun l hl => (headerLines_good m h l hl).2.2
  have hne : headerLines m ≠ [] := by unfold headerLines; simp
  unfold parseSimpleYaml
  rw [splitNl_joinNl _ hne hnl]
  exact (settled_fields _ _ (header_settles m h)).1

/-- The head of a non-empty dropWhile result fails the predicate. -/
theorem dropWhile_head_false (p : Char → Bool) (l : List Char)
    (h : l.dropWhile p ≠ []) : p ((l.dropWhile p).headD 'x') = false := by
  induction l with
  | nil => simp at h
  | cons c t ih =>
    by_cases hc : p c = true
    · rw [List.dropWhile_cons] at h ⊢
      simp only [hc, if_true] at h ⊢
      exact ih h
    · have hc' : p c = false := by simpa using hc
      rw [List.dropWhile_cons]
      simp [hc']

/-- The last element of a reversed list is its head. -/
theorem getLastD_reverse (w : List Char) (d : Char) :
    w.reverse.getLastD d = w.headD d := by
  cases w with
  | nil => rfl
  | cons c t =>
    rw [List.reverse_cons, getLastD_append_right _ _ (by simp)]
    rfl

/-- A non-empty left trim starts with a non-whitespace character. -/
theorem trimL_head (l : List Char) (h : trimL l ≠ []) :
    isWsChar ((trimL l).headD 'x') = false := dropWhile_head_false _ _ h

/-- A non-empty right trim ends with a non-whitespace character. -/
theorem trimR_last (l : List Char) (h : trimR l ≠ []) :
    isWsChar ((trimR l).getLastD 'x') = false := by
  unfold trimR at h ⊢
  have hw : l.reverse.dropWhile isWsChar ≠ [] := by
    intro hh
    rw [hh] at h
    simp at h
  rw [getLastD_reverse]
  exact dropWhile_head_false _ _ hw

/-- Right trimming preserves the head of a list when the result is
non-empty. -/
theorem trimR_headD (l : List Char) (h : trimR l ≠ []) :
    (trimR l).headD 'x' = l.headD 'x' := by
  obtain ⟨t, ht⟩ := List.dropWhile_suffix (l := l.reverse) (p := isWsChar)
  have hl : l = trimR l ++ t.reverse := by
    unfold trimR
    calc l = l.reverse.reverse := by simp
    _ = (t ++ l.reverse.dropWhile isWsChar).reverse := by rw [ht]
    _ = (l.reverse.dropWhile isWsChar).reverse ++ t.reverse := by simp
  conv_rhs => rw [hl]
  rw [headD_append_left _ _ h]

/-- A non-empty trim result starts and ends with non-whitespace. -/
theorem jsTrim_head_last (l : List Char) (h : jsTrim l ≠ []) :
    isWsChar ((jsTrim l).headD 'x') = false ∧
      isWsChar ((jsTrim l).getLastD 'x') = false := by
  unfold jsTrim at h ⊢
  constructor
  · rw [trimR_headD _ h]
    apply trimL_head
    intro hh
    rw [hh] at h
    simp [trimR] at h
  · exact trimR_last _ h

/-- Trimming an already trimmed list with one trailing whitespace character
appended gives the list back. -/
theorem trimmed_append_ws (x : List Char) (hx : x ≠ [])
    (hh : isWsChar (x.headD 'x') = false) (hl : isWsChar (x.getLastD 'x') = false)
    (c : Char) (hc : isWsChar c = true) :
    jsTrim (x ++ [c]) = x := by
  obtain ⟨a, t, rfl⟩ := List.exists_cons_of_ne_nil hx
  unfold jsTrim
  rw [List.cons_append, trimL_cons_neg _ _ (by simpa using hh), ← List.cons_append,
    trimR_concat_ws _ _ hc]
  exact trimR_eq_self _ hl

/-- A representable optional field that is not truthy is absent. -/
theorem opt_not_truthy (o : Option String) (ho : optPlainB o = true)
    (h : optTruthy o = false) : o = none := by
  cases o with
  | none => rfl
  | some s =>
    simp only [optTruthy] at h
    have hs : s.isEmpty = true := by simpa using h
    have hdata : s.data = [] := by
      rw [str_isEmpty_eq] at hs
      simpa using hs
    simp only [optPlainB] at ho
    rw [hdata] at ho
    simp [isPlainL] at ho

/-- The optional scalar effect leaves other keys unchanged. -/
theorem lookupA_optSetStr_other (r : List (List Char × YVal)) (k : List Char)
    (o : Option String) (k' : List Char) (h : k' ≠ k) :
    lookupA (optSetStr r k o) k' = lookupA r k' := by
  cases o with
  | none => rfl
  | some s =>
    by_cases hs : s.isEmpty = true
    · simp [optSetStr, hs]
    · have hs' : s.isEmpty = false := by simpa using hs
      simp only [optSetStr, hs', Bool.false_eq_true, if_false]
      exact lookupA_setA_other _ _ _ _ h

/-- The optional scalar effect at its own key. -/
theorem lookupA_optSetStr_same (r : List (List Char × YVal)) (k : List Char)
    (o : Option String) (ho : optPlainB o = true) :
    lookupA (optSetStr r k o) k =
      o.elim (lookupA r k) (fun s => some (.str s.data)) := by
  cases o with
  | none => rfl
  | some s =>
    have hp : isPlainL s.data = true := by simpa [optPlainB] using ho
    have hs : s.isEmpty = false := by
      rw [str_isEmpty_eq]
      simpa using (plain_spec _ hp).1
    simp only [optSetStr, hs, Bool.false_eq_true, if_false]
    exact lookupA_setA_same _ _ _

/-- The tags effect leaves other keys unchanged. -/
theorem lookupA_tagsSet_other (r : List (List Char × YVal)) (o : Option (List String))
    (k' : List Char) (h : k' ≠ kTags) :
    lookupA (tagsSet r o) k' = lookupA r k' := by
  cases o with
  | none => rfl
  | some ts =>
    by_cases hs : ts.isEmpty = true
    · simp [tagsSet, hs]
    · have hs' : ts.isEmpty = false := by simpa using hs
      simp only [tagsSet, hs', Bool.false_eq_true, if_false]
      exact lookupA_setA_other _ _ _ _ h

/-- The tags effect at the tags key. -/
theorem lookupA_tagsSet_same (r : List (List Char × YVal)) (o : Option (List String))
    (ho : tagsPlainB o = true) :
    lookupA (tagsSet r o) kTags =
      o.elim (lookupA r kTags) (fun ts => some (.arr (ts.map (fun t => t.data)))) := by
  cases o with
  | none => rfl
  | some ts =>
    simp only [tagsPlainB, Bool.and_eq_true, Bool.not_eq_true'] at ho
    simp only [tagsSet, ho.1, Bool.false_eq_true, if_false]
    exact lookupA_setA_same _ _ _

/-- The nested metadata effect leaves other keys unchanged. -/
theorem lookupA_metaSet_other (r : List (List Char × YVal)) (m : SkillMetadata)
    (k' : List Char) (h : k' ≠ kMetadata) :
    lookupA (metaSet r m) k' = lookupA r k' := by
  unfold metaSet
  split_ifs
  · exact lookupA_setA_other _ _ _ _ h
  · rfl

/-- The nested pair list, block by block. -/
theorem nestedPairs_eq (m : SkillMetadata) :
    nestedPairs m =
      partRaw kAuthor m.author ++ partQuoted kVersion m.version ++
        partQuoted kGeneratedBy m.generatedBy := rfl

/-- Keys of one emitted unquoted nested part. -/
theorem partRaw_keys (k : List Char) (o : Option String)
    (p : List Char × List Char) (hp : p ∈ partRaw k o) : p.1 = k := by
  cases o with
  | none => simp [partRaw] at hp
  | some s =>
    by_cases hs : s.isEmpty = true
    · simp [partRaw, hs] at hp
    · have hs' : s.isEmpty = false := by simpa using hs
      simp [partRaw, hs'] at hp
      simp [hp]

/-- Keys of one emitted quoted nested part. -/
theorem partQuoted_keys (k : List Char) (o : Option String)
    (p : List Char × List Char) (hp : p ∈ partQuoted k o) : p.1 = k := by
  cases o with
  | none => simp [partQuoted] at hp
  | some s =>
    by_cases hs : s.isEmpty = true
    · simp [partQuoted, hs] at hp
    · have hs' : s.isEmpty = false := by simpa using hs
      simp [partQuoted, hs'] at hp
      simp [hp]

/-- Folding one unquoted nested part into a field record. -/
theorem fieldFold_part_raw (fs : List (List Char × YVal)) (k : List Char)
    (o : Option String) (ho : optPlainB o = true) :
    fieldFold fs (partRaw k o) = partSet fs k o := by
  cases o with
  | none => rfl
  | some s =>
    have hp : isPlainL s.data = true := by simpa [optPlainB] using ho
    have hs : s.isEmpty = false := by
      rw [str_isEmpty_eq]
      simpa using (plain_spec _ hp).1
    unfold partRaw partSet
    simp only [hs, Bool.false_eq_true, if_false]
    show setA fs k (.str (unquote s.data)) = _
    rw [unquote_plain _ hp]

/-- Folding one single-quoted nested part into a field record. -/
theorem fieldFold_part_quoted (fs : List (List Char × YVal)) (k : List Char)
    (o : Option String) (ho : optPlainB o = true) :
    fieldFold fs (partQuoted k o) = partSet fs k o := by
  cases o with
  | none => rfl
  | some s =>
    have hp : isPlainL s.data = true := by simpa [optPlainB] using ho
    have hs : s.isEmpty = false := by
      rw [str_isEmpty_eq]
      simpa using (plain_spec _ hp).1
    unfold partQuoted partSet
    simp only [hs, Bool.false_eq_true, if_false]
    show setA fs k (.str (unquote ('\'' :: (s.data ++ ['\''])))) = _
    rw [unquote_squote]

/-- The folded nested fields at the author key. -/
theorem lookupA_nested_author (m : SkillMetadata) (hauth : optPlainB m.author = true) :
    lookupA (fieldFold [] (nestedPairs m)) kAuthor = optStrVal m.author := by
  rw [nestedPairs_eq m, fieldFold_append, fieldFold_append,
    lookupA_fieldFold _ kAuthor
      (fun p hp => by rw [partQuoted_keys kGeneratedBy m.generatedBy p hp]; decide) _,
    lookupA_fieldFold _ kAuthor
      (fun p hp => by rw [partQuoted_keys kVersion m.version p hp]; decide) _,
    fieldFold_part_raw [] kAuthor m.author hauth]
  cases hma : m.author with
  | none => rfl
  | some s => exact lookupA_setA_same _ _ _

/-- The folded nested fields at the version key. -/
theorem lookupA_nested_version (m : SkillMetadata) (hver : optPlainB m.version = true) :
    lookupA (fieldFold [] (nestedPairs m)) kVersion = optStrVal m.version := by
  rw [nestedPairs_eq m, fieldFold_append, fieldFold_append,
    lookupA_fieldFold _ kVersion
      (fun p hp => by rw [partQuoted_keys kGeneratedBy m.generatedBy p hp]; decide) _,
    fieldFold_part_quoted _ kVersion m.version hver]
  cases hmv : m.version with
  | none =>
    show lookupA (fieldFold [] (partRaw kAuthor m.author)) kVersion = none
    rw [lookupA_fieldFold _ kVersion
      (fun p hp => by rw [partRaw_keys kAuthor m.author p hp]; decide) _]
    rfl
  | some s => exact lookupA_setA_same _ _ _

/-- The folded nested fields at the generatedBy key. -/
theorem lookupA_nested_gen (m : SkillMetadata) (hgen : optPlainB m.generatedBy = true) :
    lookupA (fieldFold [] (nestedPairs m)) kGeneratedBy = optStrVal m.generatedBy := by
  rw [nestedPairs_eq m, fieldFold_append, fieldFold_append,
    fieldFold_part_quoted _ kGeneratedBy m.generatedBy hgen]
  cases hmg : m.generatedBy with
  | none =>
    show lookupA (fieldFold (fieldFold [] (partRaw kAuthor m.author))
      (partQuoted kVersion m.version)) kGeneratedBy = none
    rw [lookupA_fieldFold _ kGeneratedBy
      (fun p hp => by rw [partQuoted_keys kVersion m.version p hp]; decide) _,
      lookupA_fieldFold _ kGeneratedBy
      (fun p hp => by rw [partRaw_keys kAuthor m.author p hp]; decide) _]
    rfl
  | some s => exact lookupA_setA_same _ _ _

/-- The folded nested fields never contain the tags key. -/
theorem lookupA_nested_tags (m : SkillMetadata) :
    lookupA (fieldFold [] (nestedPairs m)) kTags = none := by
  rw [nestedPairs_eq m, fieldFold_append, fieldFold_append,
    lookupA_fieldFold _ kTags
      (fun p hp => by rw [partQuoted_keys kGeneratedBy m.generatedBy p hp]; decide) _,
    lookupA_fieldFold _ kTags
      (fun p hp => by rw [partQuoted_keys kVersion m.version p hp]; decide) _,
    lookupA_fieldFold _ kTags
      (fun p hp => by rw [partRaw_keys kAuthor m.author p hp]; decide) _]
  rfl

/-- The parsed header record at the name key. -/
theorem lookupA_header_name (m : SkillMetadata) :
    lookupA (headerResult m) kName = some (.str m.name.data) := by
  unfold headerResult
  rw [lookupA_metaSet_other _ _ _ (by decide), lookupA_tagsSet_other _ _ _ (by decide),
    lookupA_optSetStr_other _ _ _ _ (by decide), lookupA_optSetStr_other _ _ _ _ (by decide),
    lookupA_setA_other _ _ _ _ (by decide)]
  exact lookupA_setA_same _ _ _

/-- The parsed header record at the description key. -/
theorem lookupA_header_desc (m : SkillMetadata) :
    lookupA (headerResult m) kDescription = some (.str m.description.data) := by
  unfold headerResult
  rw [lookupA_metaSet_other _ _ _ (by decide), lookupA_tagsSet_other _ _ _ (by decide),
    lookupA_optSetStr_other _ _ _ _ (by decide), lookupA_optSetStr_other _ _ _ _ (by decide)]
  exact lookupA_setA_same _ _ _

/-- The parsed header record at the license key. -/
theorem lookupA_header_license (m : SkillMetadata) (hlic : optPlainB m.license = true) :
    lookupA (headerResult m) kLicense = optStrVal m.license := by
  unfold headerResult
  rw [lookupA_metaSet_other _ _ _ (by decide), lookupA_tagsSet_other _ _ _ (by decide),
    lookupA_optSetStr_other _ _ _ _ (by decide), lookupA_optSetStr_same _ _ _ hlic]
  cases hml : m.license with
  | none =>
    rw [lookupA_setA_other _ _ _ _ (by decide), lookupA_setA_other _ _ _ _ (by decide)]
    rfl
  | some s => rfl

/-- The parsed header record at the compatibility key. -/
theorem lookupA_header_compat (m : SkillMetadata)
    (hcompat : optPlainB m.compatibility = true) :
    lookupA (headerResult m) kCompatibility = optStrVal m.compatibility := by
  unfold headerResult
  rw [lookupA_metaSet_other _ _ _ (by decide), lookupA_tagsSet_other _ _ _ (by decide),
    lookupA_optSetStr_same _ _ _ hcompat]
  cases hml : m.compatibility with
  | none =>
    rw [lookupA_optSetStr_other _ _ _ _ (by decide),
      lookupA_setA_other _ _ _ _ (by decide), lookupA_setA_other _ _ _ _ (by decide)]
    rfl
  | some s => rfl

/-- The parsed header record at the tags key. -/
theorem lookupA_header_tags (m : SkillMetadata) (htags : tagsPlainB m.tags = true) :
    lookupA (headerResult m) kTags = tagsVal m.tags := by
  unfold headerResult
  rw [lookupA_metaSet_other _ _ _ (by decide), lookupA_tagsSet_same _ _ htags]
  cases hmt : m.tags with
  | some ts => rfl
  | none =>
    rw [lookupA_optSetStr_other _ _ _ _ (by decide),
      lookupA_optSetStr_other _ _ _ _ (by decide),
      lookupA_setA_other _ _ _ _ (by decide), lookupA_setA_other _ _ _ _ (by decide)]
    rfl

/-- The parsed header record has no entry under a key the serializer never
emits at top level. -/
theorem lookupA_header_absent (m : SkillMetadata) (k : List Char)
    (h1 : k ≠ kMetadata) (h2 : k ≠ kTags) (h3 : k ≠ kCompatibility) (h4 : k ≠ kLicense)
    (h5 : k ≠ kName) (h6 : k ≠ kDescription) :
    lookupA (headerResult m) k = none := by
  unfold headerResult
  rw [lookupA_metaSet_other _ _ _ h1, lookupA_tagsSet_other _ _ _ h2,
    lookupA_optSetStr_other _ _ _ _ h3, lookupA_optSetStr_other _ _ _ _ h4,
    lookupA_setA_other _ _ _ _ h6, lookupA_setA_other _ _ _ _ h5]
  rfl

/-- The parsed header record at the metadata key. -/
theorem lookupA_header_meta (m : SkillMetadata) :
    lookupA (headerResult m) kMetadata =
      if optTruthy m.author || optTruthy m.version || optTruthy m.generatedBy then
        some (.obj (fieldFold [] (nestedPairs m)))
      else none := by
  unfold headerResult metaSet
  split_ifs
  · exact lookupA_setA_same _ _ _
  · rw [lookupA_tagsSet_other _ _ _ (by decide), lookupA_optSetStr_other _ _ _ _ (by decide),
      lookupA_optSetStr_other _ _ _ _ (by decide), lookupA_setA_other _ _ _ _ (by decide),
      lookupA_setA_other _ _ _ _ (by decide)]
    rfl

/-- Field extraction on the parsed header of a representable record restores
every field. -/
theorem extract_header (m : SkillMetadata) (h : Representable m = true) :
    extractMeta (headerResult m) = expectedRaw m := by
  simp only [Representable, Bool.and_eq_true] at h
  obtain ⟨⟨⟨⟨⟨⟨⟨hname, hdesc⟩, hlic⟩, hcompat⟩, hauth⟩, hver⟩, hgen⟩, htags⟩ := h
  have hmeta := lookupA_header_meta m
  by_cases hcond : (optTruthy m.author || optTruthy m.version || optTruthy m.generatedBy) = true
  · rw [if_pos hcond] at hmeta
    have hng : ∀ k, nestedGet (headerResult m) k =
        lookupA (fieldFold [] (nestedPairs m)) k := by
      intro k
      unfold nestedGet
      rw [hmeta]
    unfold extractMeta expectedRaw
    simp only [RawMetadata.mk.injEq]
    refine ⟨?_, ?_, ?_, ?_, ?_, ?_, ?_, ?_, trivial⟩
    · rw [lookupA_header_name m]
      have hne : m.name.data ≠ [] := (plain_spec _ hname).1
      simp [jsOrDefault, jsTruthy, hne]
    · rw [lookupA_header_desc m]
      by_cases hde : m.description.data = []
      · rw [hde]
        simp [jsOrDefault, jsTruthy]
      · simp [jsOrDefault, jsTruthy, hde]
    · exact lookupA_header_license m hlic
    · exact lookupA_header_compat m hcompat
    · rw [hng kAuthor, lookupA_nested_author m hauth,
        lookupA_header_absent m kAuthor (by decide) (by decide) (by decide) (by decide)
          (by decide) (by decide)]
      cases hma : m.author with
      | none => rfl
      | some s =>
        have hp : isPlainL s.data = true := by
          rw [hma] at hauth
          simpa [optPlainB] using hauth
        have hne : s.data ≠ [] := (plain_spec _ hp).1
        simp [optStrVal, jsOrOpt, jsTruthy, hne]
    · rw [hng kVersion, lookupA_nested_version m hver,
        lookupA_header_absent m kVersion (by decide) (by decide) (by decide) (by decide)
          (by decide) (by decide)]
      cases hmv : m.version with
      | none => rfl
      | some s =>
        have hp : isPlainL s.data = true := by
          rw [hmv] at hver
          simpa [optPlainB] using hver
        have hne : s.data ≠ [] := (plain_spec _ hp).1
        simp [optStrVal, jsOrOpt, jsTruthy, hne]
    · rw [lookupA_header_tags m htags, hng kTags, lookupA_nested_tags m]
      cases hmt : m.tags with
      | none => rfl
      | some ts => simp [tagsVal, jsOrOpt, jsTruthy]
    · rw [hng kGeneratedBy, lookupA_nested_gen m hgen]
  · have hcond' :
        (optTruthy m.author || optTruthy m.version || optTruthy m.generatedBy) = false := by
      simpa using hcond
    have hta : optTruthy m.author = false := by
      cases hx : optTruthy m.author
      · rfl
      · rw [hx] at hcond'
        simp at hcond'
    have htv : optTruthy m.version = false := by
      cases hx : optTruthy m.version
      · rfl
      · rw [hx] at hcond'
        simp at hcond'
    have htg : optTruthy m.generatedBy = false := by
      cases hx : optTruthy m.generatedBy
      · rfl
      · rw [hx] at hcond'
        simp at hcond'
    have hma : m.author = none := opt_not_truthy _ hauth hta
    have hmv : m.version = none := opt_not_truthy _ hver htv
    have hmg : m.generatedBy = none := opt_not_truthy _ hgen htg
    rw [if_neg (by simp [hta, htv, htg])] at hmeta
    have hng : ∀ k, nestedGet (headerResult m) k = none := by
      intro k
      unfold nestedGet
      rw [hmeta]
    unfold extractMeta expectedRaw
    simp only [RawMetadata.mk.injEq]
    refine ⟨?_, ?_, ?_, ?_, ?_, ?_, ?_, ?_, trivial⟩
    · rw [lookupA_header_name m]
      have hne : m.name.data ≠ [] := (plain_spec _ hname).1
      simp [jsOrDefault, jsTruthy, hne]
    · rw [lookupA_header_desc m]
      by_cases hde : m.description.data = []
      · rw [hde]
        simp [jsOrDefault, jsTruthy]
      · simp [jsOrDefault, jsTruthy, hde]
    · exact lookupA_header_license m hlic
    · exact lookupA_header_compat m hcompat
    · rw [hng kAuthor,
        lookupA_header_absent m kAuthor (by decide) (by decide) (by decide) (by decide)
          (by decide) (by decide), hma]
      rfl
    · rw [hng kVersion,
        lookupA_header_absent m kVersion (by decide) (by decide) (by decide) (by decide)
          (by decide) (by decide), hmv]
      rfl
    · rw [lookupA_header_tags m htags, hng kTags]
      cases hmt : m.tags with
      | none => rfl
      | some ts => simp [tagsVal, jsOrOpt, jsTruthy]
    · rw [hng kGeneratedBy, hmg]
      rfl

/-- Parsing a serialized representable record: the metadata comes back as its
expected runtime image and the body as the trimmed body with the join's
trailing newline. -/
theorem parse_serialize (m : SkillMetadata) (b : String) (h : Representable m = true) :
    parseFrontmatter (serializeSkill m b) =
      (expectedRaw m, (⟨bodyRT b.data⟩ : String)) := by
  have hgood := headerLines_good m h
  have hform : headerLines m =
      ('n' :: ('a' :: 'm' :: 'e' :: ':' :: ' ' :: m.name.data)) ::
        ((kDescription ++ ':' :: ' ' :: quoteYamlValue m.description.data) ::
          (optLineRaw kLicense m.license ++ optLineQuoted kCompatibility m.compatibility ++
            tagLines m.tags ++ metaLines m)) := rfl
  have hT : jsTrim b.data = [] ∨ isWsChar ((jsTrim b.data).headD 'x') = false := by
    by_cases hbe : jsTrim b.data = []
    · exact Or.inl hbe
    · exact Or.inr (jsTrim_head_last _ hbe).1
  have hm : matchFM (joinNl (serializeLines m b.data)) =
      some (joinNl (headerLines m),
        if (jsTrim b.data).isEmpty then [] else jsTrim b.data ++ ['\n']) := by
    rw [joinNl_serializeLines, hform]
    exact matchFM_serialized 'n' _ _ (jsTrim b.data)
      (by rw [← hform]; exact hgood) (by decide) hT
  unfold parseFrontmatter
  rw [show (serializeSkill m b).data = joinNl (serializeLines m b.data) from rfl, hm]
  show (extractMeta (parseSimpleYaml (joinNl (headerLines m))),
      (⟨if (jsTrim b.data).isEmpty then [] else jsTrim b.data ++ ['\n']⟩ : String)) = _
  rw [header_parse m h, extract_header m h]
  rfl

/-- Trimming the returned body recovers the trimmed original body. -/
theorem jsTrim_bodyRT (l : List Char) : jsTrim (bodyRT l) = jsTrim l := by
  unfold bodyRT
  by_cases hbe : (jsTrim l).isEmpty = true
  · rw [if_pos hbe]
    have hnil : jsTrim l = [] := by simpa using hbe
    rw [hnil]
    rfl
  · have hbe' : (jsTrim l).isEmpty = false := by simpa using hbe
    rw [if_neg (by simp [hbe'])]
    have hx : jsTrim l ≠ [] := by simpa using hbe'
    obtain ⟨hh, hl⟩ := jsTrim_head_last l hx
    exact trimmed_append_ws _ hx hh hl '\n' (by decide)

/-- C1 (amended): codec round trip.  For every metadata record with only
representable fields and any body string, parsing the serialized document
returns the metadata field-for-field (after defaulting, with an empty
extension bag), and the returned body trims to the same text as the original
body: concretely the body comes back as the trimmed body plus one trailing
newline (or empty), so body.trim() is preserved although the body itself is
not the bare trimmed body demanded by the strong form of section 4.1. -/
theorem frontmatter_round_trip (m : SkillMetadata) (b : String)
    (h : Representable m = true) :
    (parseFrontmatter (serializeSkill m b)).1 = expectedRaw m ∧
      (parseFrontmatter (serializeSkill m b)).2.data = bodyRT b.data ∧
      jsTrim (parseFrontmatter (serializeSkill m b)).2.data = jsTrim b.data := by
  have hp := parse_serialize m b h
  refine ⟨by rw [hp], by rw [hp], ?_⟩
  rw [hp]
  exact jsTrim_bodyRT b.data

/-- Witness for the round-trip theorem at a concrete representable record
carrying every kind of field, and a concrete body. -/
theorem frontmatter_round_trip_witness :
    Representable
      { name := "demo", description := "A demo skill", license := some "MIT",
        compatibility := some "claude", author := some "ann", version := some "1.0",
        tags := some ["alpha", "beta"], generatedBy := some "hand" } = true ∧
      ((parseFrontmatter (serializeSkill
          { name := "demo", description := "A demo skill", license := some "MIT",
            compatibility := some "claude", author := some "ann", version := some "1.0",
            tags := some ["alpha", "beta"], generatedBy := some "hand" }
          "hello world")).1 =
        expectedRaw
          { name := "demo", description := "A demo skill", license := some "MIT",
            compatibility := some "claude", author := some "ann", version := some "1.0",
            tags := some ["alpha", "beta"], generatedBy := some "hand" } ∧
      (parseFrontmatter (serializeSkill
          { name := "demo", description := "A demo skill", license := some "MIT",
            compatibility := some "claude", author := some "ann", version := some "1.0",
            tags := some ["alpha", "beta"], generatedBy := some "hand" }
          "hello world")).2.data = bodyRT "hello world".data ∧
      jsTrim (parseFrontmatter (serializeSkill
          { name := "demo", description := "A demo skill", license := some "MIT",
            compatibility := some "claude", author := some "ann", version := some "1.0",
            tags := some ["alpha", "beta"], generatedBy := some "hand" }
          "hello world")).2.data = jsTrim "hello world".data) :=
  ⟨by decide,
    frontmatter_round_trip
      { name := "demo", description := "A demo skill", license := some "MIT",
        compatibility := some "claude", author := some "ann", version := some "1.0",
        tags := some ["alpha", "beta"], generatedBy := some "hand" }
      "hello world" (by decide)⟩

/-- C1 counterexample to the strong form of section 4.1: for the representable
record with name n and the body hello, the parsed body is the trimmed body
with a trailing newline, not the trimmed body itself. -/
theorem frontmatter_body_counterexample :
    (parseFrontmatter (serializeSkill { name := "n", description := "" } "hello")).2 =
        "hello\n" ∧
      jsTrim "hello".data = "hello".data ∧
      ("hello\n" : String) ≠ "hello" := by
  refine ⟨?_, by decide, by decide⟩
  rfl

end SkillDock
